import Mathlib

/-!
Verification development for the ai-ris news-scraping pipeline.

This file gives a shallow embedding, in Lean 4, of the core ingestion and
normalization pipeline of the repository:

* `scraper_utils.py` — date-string parsing (`parse_date_string`), field-mapping
  inference (`infer_field_mapping`), item assembly
  (`assemble_items_from_grouped`) and the paginated collection loop
  (`scrape_pages_collect_items`);
* `pp.py` / `old_files/utils.py` — URL canonicalization (`canonicalize_url`,
  including a faithful model of CPython 3.11's `urllib.parse` routines it
  calls), row deduplication (`dedup_rows`, including a full executable
  SHA-256), the inclusive day-range filter (`within_day_range`, `cap_by_date`
  in its two variants) over a model of the Europe/London timezone, and the
  GDELT rolling-window pagination loop (`gdelt_artlist_rolling`).

Python strings are modelled as Lean `String`/`List Char` (Unicode scalar
values; CPython also admits lone surrogates, which never arise here).
Python `dict`s are modelled as insertion-ordered association lists, matching
CPython's guaranteed iteration order.  Machine-level caveats are noted at the
definition they concern.  The external best-effort datetime parser
(`dateutil.parser.parse`, used by `parse_any_datetime`) is a third-party
capability and is modelled as an explicit function parameter `pad`.
-/

namespace Py

/-- Characters for which Python's `str.isspace()` returns true.  (`\x1c`–`\x1f`,
`\x85`, `\xa0` and the Unicode space code points are included by CPython.) -/
def pyIsSpace (c : Char) : Bool :=
  c = ' ' || c = '\t' || c = '\n' || (c.toNat ≥ 0xb && c.toNat ≤ 0xd) ||
  c.toNat = 0x1c || c.toNat = 0x1d || c.toNat = 0x1e || c.toNat = 0x1f ||
  c.toNat = 0x85 || c.toNat = 0xa0 || c.toNat = 0x1680 ||
  (c.toNat ≥ 0x2000 && c.toNat ≤ 0x200a) || c.toNat = 0x2028 ||
  c.toNat = 0x2029 || c.toNat = 0x202f || c.toNat = 0x205f || c.toNat = 0x3000

/-- Python `str.strip()` on a character list: drop whitespace from both ends. -/
def stripChars (l : List Char) : List Char :=
  ((l.dropWhile pyIsSpace).reverse.dropWhile pyIsSpace).reverse

/-- Python `str.strip()`. -/
def pyStrip (s : String) : String := ⟨stripChars s.data⟩

/-- ASCII lower-casing of one character; non-ASCII characters are unchanged
(CPython's `str.lower()` applies Unicode case folding, which coincides with
this on all ASCII data handled by the pipeline). -/
def asciiLower (c : Char) : Char :=
  if 'A' ≤ c && c ≤ 'Z' then Char.ofNat (c.toNat + 32) else c

/-- Python `str.lower()` (ASCII model, see `asciiLower`). -/
def pyLower (s : String) : String := ⟨s.data.map asciiLower⟩

/-- ASCII decimal digit test (`\d` of CPython's `re` also accepts non-ASCII
decimal digits; the pipeline only encounters ASCII ones). -/
def isDig (c : Char) : Bool := '0' ≤ c && c ≤ '9'

/-- Numeric value of a list of ASCII digits, most significant first. -/
def digitsVal (l : List Char) : Nat :=
  l.foldl (fun a c => a * 10 + (c.toNat - '0'.toNat)) 0

end Py

namespace Scraper

/-! Embedding of `src/iris to scrape/scraper_utils.py`. -/

open Py

/-- Gregorian leap-year test, as used by `datetime.date`. -/
def isLeap (y : Nat) : Bool := y % 4 = 0 && (y % 100 ≠ 0 || y % 400 = 0)

/-- Length of a month, as validated by the `datetime.date` constructor. -/
def daysInMonth (y m : Nat) : Nat :=
  if m = 2 then (if isLeap y then 29 else 28)
  else if m = 4 || m = 6 || m = 9 || m = 11 then 30
  else 31

/-- Validity of a (year, month, day) triple for `datetime.date` (CPython also
requires `1 ≤ year ≤ 9999`, and `strptime`'s `%Y`/`%y` never exceed 9999). -/
def validYmd (y m d : Nat) : Bool :=
  1 ≤ y && y ≤ 9999 && 1 ≤ m && m ≤ 12 && 1 ≤ d && d ≤ daysInMonth y m

/-- A calendar date as produced by `datetime.strptime(...).date()`. -/
structure Ymd where
  y : Nat
  m : Nat
  d : Nat
deriving DecidableEq, Repr

/-- Ordering key for dates; for valid dates (month ≤ 12, day ≤ 31) comparing
keys agrees with Python's lexicographic `datetime.date` comparison. -/
def Ymd.key (a : Ymd) : Nat := a.y * 10000 + a.m * 100 + a.d

/-- Python `date.__lt__` on valid dates. -/
def Ymd.lt (a b : Ymd) : Bool := a.key < b.key

/-- Left-pad the decimal representation of `n` with zeros to width `w`. -/
def padNum (w n : Nat) : List Char :=
  let s := (Nat.toDigits 10 n)
  List.replicate (w - s.length) '0' ++ s

/-- Python `date.isoformat()`: the string `YYYY-MM-DD`. -/
def isoformat (a : Ymd) : String :=
  ⟨padNum 4 a.y ++ '-' :: padNum 2 a.m ++ '-' :: padNum 2 a.d⟩

end Scraper

namespace Scraper

open Py

/-! CPython `datetime.strptime` model.  CPython compiles a format string into
a regular expression (anchored at the start, case-insensitive, whole string
must be consumed) and then validates the captured fields through the
`datetime` constructor.  Each directive below returns its list of
(value, remaining input) alternatives in the regex engine's backtracking
preference order; a format matches via depth-first search over these. -/

/-- Partially filled date during `strptime` matching (defaults: 1900-01-01). -/
structure PDate where
  dv : Nat
  mv : Nat
  yv : Nat
deriving DecidableEq, Repr

/-- Directives appearing in the formats used by `scraper_utils.py`:
`%d %m %Y %y %b %B`, literal characters, and format whitespace (which CPython
compiles to the regex `\s+`). -/
inductive Dir
  | day | mon | yr4 | yr2 | mabbr | mfull | lit (c : Char) | ws
deriving Repr

/-- Alternatives of `%d`, the regex `(3[01]|[12]\d|0[1-9]|[1-9])`. -/
def dayAlts : List Char → List (Nat × List Char)
  | a :: b :: rest =>
    (if a = '3' && (b = '0' || b = '1') then [(digitsVal [a, b], rest)] else []) ++
    (if (a = '1' || a = '2') && isDig b then [(digitsVal [a, b], rest)] else []) ++
    (if a = '0' && '1' ≤ b && b ≤ '9' then [(digitsVal [a, b], rest)] else []) ++
    (if '1' ≤ a && a ≤ '9' then [(digitsVal [a], b :: rest)] else [])
  | [a] => if '1' ≤ a && a ≤ '9' then [(digitsVal [a], [])] else []
  | [] => []

/-- Alternatives of `%m`, the regex `(1[0-2]|0[1-9]|[1-9])`. -/
def monAlts : List Char → List (Nat × List Char)
  | a :: b :: rest =>
    (if a = '1' && (b = '0' || b = '1' || b = '2') then [(digitsVal [a, b], rest)] else []) ++
    (if a = '0' && '1' ≤ b && b ≤ '9' then [(digitsVal [a, b], rest)] else []) ++
    (if '1' ≤ a && a ≤ '9' then [(digitsVal [a], b :: rest)] else [])
  | [a] => if '1' ≤ a && a ≤ '9' then [(digitsVal [a], [])] else []
  | [] => []

/-- Alternatives of `%Y`, the regex `(\d\d\d\d)`. -/
def yr4Alts : List Char → List (Nat × List Char)
  | a :: b :: c :: d :: rest =>
    if isDig a && isDig b && isDig c && isDig d then [(digitsVal [a, b, c, d], rest)] else []
  | _ => []

/-- Alternatives of `%y` (`(\d\d)`), with CPython's century rule:
a two-digit year ≤ 68 is 20xx, otherwise 19xx. -/
def yr2Alts : List Char → List (Nat × List Char)
  | a :: b :: rest =>
    if isDig a && isDig b then
      [((if digitsVal [a, b] ≤ 68 then 2000 + digitsVal [a, b] else 1900 + digitsVal [a, b]), rest)]
    else []
  | _ => []

/-- English abbreviated month names, as matched case-insensitively by `%b`. -/
def monthAbbrs : List String :=
  ["jan", "feb", "mar", "apr", "may", "jun", "jul", "aug", "sep", "oct", "nov", "dec"]

/-- English full month names with numbers, sorted by length descending as in
CPython's compiled alternation for `%B` (no name is a prefix of another). -/
def monthFulls : List (Nat × String) :=
  [(9, "september"), (11, "november"), (12, "december"), (2, "february"),
   (1, "january"), (10, "october"), (8, "august"), (4, "april"), (3, "march"),
   (6, "june"), (7, "july"), (5, "may")]

/-- Alternatives of `%b`: three letters, case-insensitive. -/
def mabbrAlts (l : List Char) : List (Nat × List Char) :=
  match l with
  | a :: b :: c :: rest =>
    match monthAbbrs.findIdx? (fun nm => nm.data = [asciiLower a, asciiLower b, asciiLower c]) with
    | some i => [(i + 1, rest)]
    | none => []
  | _ => []

/-- Alternatives of `%B`: a full month name, case-insensitive. -/
def mfullAlts (l : List Char) : List (Nat × List Char) :=
  monthFulls.filterMap fun p =>
    if (l.take p.2.length).map asciiLower = p.2.data then some (p.1, l.drop p.2.length) else none

/-- Alternatives of format whitespace (`\s+`): drop `k, k-1, …, 1` leading
whitespace characters, greedy first. -/
def wsAlts (l : List Char) : List (List Char) :=
  let k := (l.takeWhile pyIsSpace).length
  (List.range k).map fun j => l.drop (k - j)

/-- One directive step of the `strptime` regex engine. -/
def stepAlts : Dir → PDate → List Char → List (PDate × List Char)
  | .day, st, l => (dayAlts l).map fun p => ({ st with dv := p.1 }, p.2)
  | .mon, st, l => (monAlts l).map fun p => ({ st with mv := p.1 }, p.2)
  | .yr4, st, l => (yr4Alts l).map fun p => ({ st with yv := p.1 }, p.2)
  | .yr2, st, l => (yr2Alts l).map fun p => ({ st with yv := p.1 }, p.2)
  | .mabbr, st, l => (mabbrAlts l).map fun p => ({ st with mv := p.1 }, p.2)
  | .mfull, st, l => (mfullAlts l).map fun p => ({ st with mv := p.1 }, p.2)
  | .lit c, st, l =>
    match l with
    | x :: r => if x = c then [(st, r)] else []
    | [] => []
  | .ws, st, l => (wsAlts l).map fun r => (st, r)

/-- Depth-first enumeration of all matches of a format, in the regex engine's
backtracking order. -/
def runFmt : List Dir → PDate → List Char → List (PDate × List Char)
  | [], st, l => [(st, l)]
  | d :: ds, st, l => (stepAlts d st l).flatMap fun p => runFmt ds p.1 p.2

/-- CPython `datetime.strptime(s, fmt).date()`: the first alternative that
consumes the whole input, validated through the `datetime` constructor. -/
def strptimeDate (fmt : List Dir) (l : List Char) : Option Ymd :=
  match (runFmt fmt ⟨1, 1, 1900⟩ l).find? (fun p => p.2.isEmpty) with
  | some (st, _) => if validYmd st.yv st.mv st.dv then some ⟨st.yv, st.mv, st.dv⟩ else none
  | none => none

def fmtIso : List Dir := [.yr4, .lit '-', .mon, .lit '-', .day]
def fmtDdotmY : List Dir := [.day, .lit '.', .mon, .lit '.', .yr4]
def fmtDdotmy : List Dir := [.day, .lit '.', .mon, .lit '.', .yr2]
def fmtDslashmY : List Dir := [.day, .lit '/', .mon, .lit '/', .yr4]
def fmtMslashdY : List Dir := [.mon, .lit '/', .day, .lit '/', .yr4]
def fmtYslashmd : List Dir := [.yr4, .lit '/', .mon, .lit '/', .day]
def fmtBdY : List Dir := [.mabbr, .ws, .day, .lit ',', .ws, .yr4]
def fmtBBdY : List Dir := [.mfull, .ws, .day, .lit ',', .ws, .yr4]
def fmtDbY : List Dir := [.day, .ws, .mabbr, .ws, .yr4]
def fmtDBY : List Dir := [.day, .ws, .mfull, .ws, .yr4]

/-- The `COMMON_DATE_FORMATS` list of `scraper_utils.py`, in source order. -/
def COMMON_DATE_FORMATS : List (List Dir) :=
  [fmtIso, fmtDdotmY, fmtDdotmy, fmtDslashmY, fmtMslashdY, fmtYslashmd,
   fmtBdY, fmtBBdY, fmtDbY, fmtDBY]

end Scraper

namespace Scraper

open Py

/-- The regex `^https?://` of `URL_RE`, applied case-insensitively by
`looks_like_url` to the stripped string (anchored, so `search` = prefix test). -/
def looks_like_url (s : String) : Bool :=
  let t := (stripChars s.data).map asciiLower
  t.take 7 = "http://".data || t.take 8 = "https://".data

/-- Match of `ISO_DATE_RE` (`\d{4}-\d{2}-\d{2}`) at the head of the input,
returning the matched ten characters. -/
def isoAt (l : List Char) : Option (List Char) :=
  match l with
  | a :: b :: c :: d :: h1 :: e :: f :: h2 :: g :: h :: _ =>
    if isDig a && isDig b && isDig c && isDig d && h1 = '-' &&
       isDig e && isDig f && h2 = '-' && isDig g && isDig h then
      some [a, b, c, d, h1, e, f, h2, g, h]
    else none
  | _ => none

/-- Leftmost match of `ISO_DATE_RE` (`re.search` semantics). -/
def isoSearch : List Char → Option (List Char)
  | [] => none
  | x :: t =>
    match isoAt (x :: t) with
    | some m => some m
    | none => isoSearch t

/-- Take exactly `n` ASCII digits from the input. -/
def takeDigs (l : List Char) (n : Nat) : Option (List Char × List Char) :=
  let pre := l.take n
  if pre.length = n && pre.all isDig then some (pre, l.drop n) else none

/-- Match of the fallback regex `(\d{1,2}[./]\d{1,2}[./]\d{2,4})` at the head
of the input (greedy quantifiers with backtracking), returning matched text. -/
def m2At (l : List Char) : Option (List Char) :=
  [2, 1].findSome? fun n1 =>
    (takeDigs l n1).bind fun p1 =>
      match p1.2 with
      | s1 :: r1 =>
        if s1 = '.' || s1 = '/' then
          [2, 1].findSome? fun n2 =>
            (takeDigs r1 n2).bind fun p2 =>
              match p2.2 with
              | s2 :: r2 =>
                if s2 = '.' || s2 = '/' then
                  [4, 3, 2].findSome? fun n3 =>
                    (takeDigs r2 n3).map fun p3 =>
                      p1.1 ++ s1 :: (p2.1 ++ s2 :: p3.1)
                else none
              | [] => none
        else none
      | [] => none

/-- Leftmost match of the `\d{1,2}[./]\d{1,2}[./]\d{2,4}` fallback. -/
def m2Search : List Char → Option (List Char)
  | [] => none
  | x :: t =>
    match m2At (x :: t) with
    | some m => some m
    | none => m2Search t

/-- Match of the textual-month regex `([A-Za-z]{3,9} \d{1,2}, \d{4})` at the
head of the input, returning the matched text. -/
def m3At (l : List Char) : Option (List Char) :=
  [9, 8, 7, 6, 5, 4, 3].findSome? fun n =>
    let w := l.take n
    if w.length = n && w.all Char.isAlpha then
      match l.drop n with
      | ' ' :: r1 =>
        [2, 1].findSome? fun nd =>
          (takeDigs r1 nd).bind fun pd =>
            match pd.2 with
            | ',' :: ' ' :: r3 =>
              (takeDigs r3 4).map fun py => w ++ ' ' :: (pd.1 ++ ',' :: ' ' :: py.1)
            | _ => none
      | _ => none
    else none

/-- Leftmost match of the textual-month fallback. -/
def m3Search : List Char → Option (List Char)
  | [] => none
  | x :: t =>
    match m3At (x :: t) with
    | some m => some m
    | none => m3Search t

/-- The function `parse_date_string` of `scraper_utils.py`: best-effort parse
into an ISO `YYYY-MM-DD` string.  Tries, in order: the leftmost
`ISO_DATE_RE` substring through `strptime("%Y-%m-%d")`; each entry of
`COMMON_DATE_FORMATS` on the whole stripped string; the numeric
`D[./]M[./]Y` regex fallback through four formats; the textual-month regex
fallback through `%B`/`%b`. -/
def parse_date_string (s : String) : Option String :=
  if s.data.isEmpty then none
  else
    let sc := stripChars s.data
    match (isoSearch sc).bind (strptimeDate fmtIso) with
    | some d => some (isoformat d)
    | none =>
      match COMMON_DATE_FORMATS.findSome? (fun f => strptimeDate f sc) with
      | some d => some (isoformat d)
      | none =>
        match (m2Search sc).bind fun cand =>
            [fmtDdotmY, fmtDslashmY, fmtMslashdY, fmtDdotmy].findSome?
              (fun f => strptimeDate f cand) with
        | some d => some (isoformat d)
        | none =>
          match (m3Search sc).bind fun cand =>
              match strptimeDate fmtBBdY cand with
              | some d => some d
              | none => strptimeDate fmtBdY cand with
          | some d => some (isoformat d)
          | none => none

/-- An unreduced fraction with positive denominator.  CPython computes the
metric values of `infer_field_mapping` as binary64 floats; on every input
appearing in this development the float arithmetic is exact, so exact
fractions (compared by cross-multiplication) model it faithfully. -/
structure Frac where
  num : Int
  den : Int
deriving DecidableEq, Repr

/-- Value comparison of fractions with positive denominators. -/
def fracLt (a b : Frac) : Bool := a.num * b.den < b.num * a.den

/-- Value equality of fractions with positive denominators. -/
def fracEq (a b : Frac) : Bool := a.num * b.den = b.num * a.den

/-- Negation of a fraction (Python's unary minus on the float). -/
def fracNeg (a : Frac) : Frac := ⟨-a.num, a.den⟩

/-- Per-rule statistics computed by `infer_field_mapping`. -/
structure Metrics where
  urlFrac : Frac
  dateFrac : Frac
  avgLen : Frac
deriving DecidableEq, Repr

/-- The metrics of one rule's value list (`url_frac`, `date_frac`, `avg_len`
over the non-empty-after-strip values; all zero when none remain). -/
def metricsOf (vals : List String) : Metrics :=
  let ne := vals.filter fun v => !(stripChars v.data).isEmpty
  if ne.isEmpty then ⟨⟨0, 1⟩, ⟨0, 1⟩, ⟨0, 1⟩⟩
  else
    { urlFrac := ⟨(ne.filter looks_like_url).length, ne.length⟩
      dateFrac := ⟨(ne.filter (fun v => (parse_date_string v).isSome)).length, ne.length⟩
      avgLen := ⟨(ne.map (fun v => v.data.length)).sum, ne.length⟩ }

/-- Lexicographic strict comparison of Python 2-tuples of numbers. -/
def lexGtQ (a b : Frac × Frac) : Bool :=
  fracLt b.1 a.1 || (fracEq a.1 b.1 && fracLt b.2 a.2)

/-- Python `max(items, key=...)`: first element attaining the maximum key
(later elements replace only on strictly greater key). -/
def pyMaxBy (key : α → Frac × Frac) : List α → Option α
  | [] => none
  | x :: xs => some (xs.foldl (fun best c => if lexGtQ (key c) (key best) then c else best) x)

/-- The function `infer_field_mapping` of `scraper_utils.py`: assign each rule
one of `url`/`date`/`title`/`other`.  `grouped` is an insertion-ordered
association list modelling the Python dict (CPython raises on an empty dict
at the `max` call; callers never pass one, and the model returns `[]`). -/
def infer_field_mapping (grouped : List (String × List String)) : List (String × String) :=
  let metrics := grouped.map fun p => (p.1, metricsOf p.2)
  let mapping0 : List (String × String) :=
    match pyMaxBy (fun p => (p.2.urlFrac, p.2.avgLen)) metrics with
    | some p => if fracLt ⟨1, 5⟩ p.2.urlFrac then [(p.1, "url")] else []
    | none => []
  let dateCands := metrics.filter fun p => (mapping0.lookup p.1).isNone
  let mapping1 : List (String × String) :=
    match pyMaxBy (fun p => (p.2.dateFrac, fracNeg p.2.avgLen)) dateCands with
    | some p => if fracLt ⟨3, 20⟩ p.2.dateFrac then mapping0 ++ [(p.1, "date")] else mapping0
    | none => mapping0
  mapping1 ++ (metrics.filter fun p => (mapping1.lookup p.1).isNone).map
    (fun p => (p.1, if fracLt ⟨10, 1⟩ p.2.avgLen then "title" else "other"))

end Scraper

namespace Scraper

/-- The grouped input of the spec's field-mapping inference scenario. -/
def c1Grouped : List (String × List String) :=
  [("g1", ["https://a.com/1", "https://a.com/2"]),
   ("g2", ["2024-01-01", "2024-01-02"]),
   ("g3", ["Title One", "Title Two"])]

end Scraper

/-- C1, counterexample.  The claim says `infer_field_mapping` assigns `g1→url`,
`g2→date`, `g3→title` on the spec's grouped scenario; in fact `g3` is assigned
`"other"`, because the average length of `"Title One"`/`"Title Two"` is 9,
which does not exceed the `> 10` title threshold. -/
theorem c1_counterexample :
    ¬ ((Scraper.infer_field_mapping Scraper.c1Grouped).lookup "g1" = some "url" ∧
       (Scraper.infer_field_mapping Scraper.c1Grouped).lookup "g2" = some "date" ∧
       (Scraper.infer_field_mapping Scraper.c1Grouped).lookup "g3" = some "title") := by
  decide

/-- C1, amended.  On the grouped input
`{"g1": ["https://a.com/1","https://a.com/2"], "g2": ["2024-01-01","2024-01-02"],
"g3": ["Title One","Title Two"]}`, `infer_field_mapping` assigns `g1` to `url`
and `g2` to `date`, but assigns `g3` to `other` (not `title`), since the
average value length of `g3` is 9 ≤ 10. -/
theorem c1_amended :
    Scraper.infer_field_mapping Scraper.c1Grouped =
      [("g1", "url"), ("g2", "date"), ("g3", "other")] := by
  decide

namespace Scraper

open Py

/-- Truthiness of an optional string (`None` and `""` are falsy). -/
def truthyS : Option String → Bool
  | some s => !s.data.isEmpty
  | none => false

/-- An assembled item `{'title':…, 'url':…, 'date':…}`. -/
structure Item where
  title : Option String
  url : Option String
  date : Option String
deriving DecidableEq, Repr

/-- The function `assemble_items_from_grouped` of `scraper_utils.py`: zip the
url/title/date groups positionally up to the longest of the three lists,
parsing dates and promoting a URL-looking title into a missing url slot.
When several rules map to the same field the last assignment wins, matching
the Python dict update. -/
def assemble_items_from_grouped (grouped : List (String × List String))
    (mapping : List (String × String)) : List Item :=
  let pick : String → List String := fun fld =>
    mapping.foldl (fun acc p => if p.2 = fld then (grouped.lookup p.1).getD [] else acc) []
  let urls := pick "url"
  let titles := pick "title"
  let dates := pick "date"
  let targetLen := max urls.length (max titles.length dates.length)
  (List.range targetLen).map fun i =>
    let rawUrl := urls[i]?
    let rawTitle := titles[i]?
    let rawDate := dates[i]?
    let parsedDate := rawDate.bind fun d =>
      if d.data.isEmpty then none else parse_date_string d
    let promotedUrl :=
      if !truthyS rawUrl && (match rawTitle with
          | some t => looks_like_url t
          | none => false) then rawTitle
      else rawUrl
    { title := rawTitle, url := promotedUrl, date := parsedDate }

/-- Leftmost non-overlapping replacement of a non-empty pattern, with the
input length as structural fuel (Python `str.replace` for the non-empty
patterns used here). -/
def replaceGo (pat repl : List Char) : Nat → List Char → List Char
  | _, [] => []
  | 0, l => l
  | f + 1, x :: t =>
    if (x :: t).take pat.length = pat then repl ++ replaceGo pat repl f ((x :: t).drop pat.length)
    else x :: replaceGo pat repl f t

/-- Python `"...{page}...".format(page=p)` for the templates used here, which
substitutes the decimal page number for the `\x7bpage\x7d` placeholder. -/
def pageUrl (tmpl : String) (p : Nat) : String :=
  ⟨replaceGo "{page}".data (toString p).data tmpl.data.length tmpl.data⟩

/-- Accumulator of `scrape_pages_collect_items` (`collected`, `seen_urls`,
`pages_scraped`, `has_any_dates`). -/
structure ScrapeState where
  collected : List Item
  seen : List String
  pages : Nat
  hasAnyDates : Bool
deriving DecidableEq, Repr

/-- The per-item loop of one page: skip items whose truthy url was already
seen, extend `seen_urls` and `collected`, and track the oldest
`%Y-%m-%d`-parseable date of the page. -/
def processItems (st : ScrapeState) (items : List Item) : ScrapeState × Option Ymd :=
  items.foldl
    (fun acc it =>
      let st := acc.1
      if truthyS it.url && st.seen.contains ((it.url).getD "") then acc
      else
        let st := { st with
          seen := if truthyS it.url then st.seen ++ [(it.url).getD ""] else st.seen
          collected := st.collected ++ [it] }
        match it.date with
        | some d =>
          if d.data.isEmpty then (st, acc.2)
          else
            let st := { st with hasAnyDates := true }
            match strptimeDate fmtIso d.data with
            | some dt =>
              (st, match acc.2 with
                   | none => some dt
                   | some o => if Ymd.lt dt o then some dt else some o)
            | none => (st, acc.2)
        | none => (st, acc.2))
    (st, none)

/-- One page visit of `scrape_pages_collect_items` after a successful fetch:
filter the grouped result to `selected_rule_names` (a truthy, i.e. non-empty,
list), resolve the active mapping (a falsy caller mapping means inference),
assemble and process items, increment `pages_scraped`, and report whether the
loop breaks (cutoff reached on a dated page, or no items assembled). -/
def scrapeStep (grouped0 : List (String × List String)) (sel : Option (List String))
    (mapping : Option (List (String × String))) (cutoff : Option Ymd)
    (st : ScrapeState) : ScrapeState × Bool :=
  let grouped := match sel with
    | some names => if names.isEmpty then grouped0
                    else grouped0.filter fun kv => names.contains kv.1
    | none => grouped0
  let activeMapping := match mapping with
    | some m => if m.isEmpty then infer_field_mapping grouped else m
    | none => infer_field_mapping grouped
  let items := assemble_items_from_grouped grouped activeMapping
  let pr := processItems st items
  let st1 := { pr.1 with pages := pr.1.pages + 1 }
  let cutStop := match cutoff, pr.2 with
    | some cd, some od => Ymd.lt od cd
    | _, _ => false
  (st1, cutStop || items.isEmpty)

/-- The page loop of `scrape_pages_collect_items`, with the remaining page
count as structural fuel (`for p in range(start_page, start_page+max_pages)`).
A failing fetch (`None` here, an exception in Python) stops pagination. -/
def scrapeLoop (fetch : String → Option (List (String × List String))) (tmpl : String)
    (sel : Option (List String)) (mapping : Option (List (String × String)))
    (cutoff : Option Ymd) : Nat → Nat → ScrapeState → List Item × Nat
  | 0, _, st => (st.collected, st.pages)
  | fuel + 1, p, st =>
    match fetch (pageUrl tmpl p) with
    | none => (st.collected, st.pages)
    | some grouped0 =>
      let pr := scrapeStep grouped0 sel mapping cutoff st
      if pr.2 then (pr.1.collected, pr.1.pages)
      else scrapeLoop fetch tmpl sel mapping cutoff fuel (p + 1) pr.1

/-- The function `scrape_pages_collect_items` of `scraper_utils.py`, with the
page fetch (`scraper.get_result_similar(page_url, grouped=True)`) supplied as
an oracle `fetch` (`none` models a raised exception).  Returns
`(collected, pages_scraped)`. -/
def scrape_pages_collect_items (fetch : String → Option (List (String × List String)))
    (page_url_template : String) (start_page max_pages : Nat)
    (cutoff_date_iso : Option String) (mapping : Option (List (String × String)))
    (selected_rule_names : Option (List String)) : List Item × Nat :=
  let cutoff : Option Ymd := match cutoff_date_iso with
    | some s => if s.data.isEmpty then none else strptimeDate fmtIso s.data
    | none => none
  scrapeLoop fetch page_url_template selected_rule_names mapping cutoff
    max_pages start_page ⟨[], [], 0, false⟩

end Scraper

namespace Scraper

/-- Unfolding equation of `scrapeLoop` for one remaining page. -/
theorem scrapeLoop_succ (fetch : String → Option (List (String × List String)))
    (tmpl : String) (sel : Option (List String)) (mapping : Option (List (String × String)))
    (cutoff : Option Ymd) (fuel p : Nat) (st : ScrapeState) :
    scrapeLoop fetch tmpl sel mapping cutoff (fuel + 1) p st =
      match fetch (pageUrl tmpl p) with
      | none => (st.collected, st.pages)
      | some grouped0 =>
        let pr := scrapeStep grouped0 sel mapping cutoff st
        if pr.2 then (pr.1.collected, pr.1.pages)
        else scrapeLoop fetch tmpl sel mapping cutoff fuel (p + 1) pr.1 := rfl

/-- The caller-supplied mapping of the pagination-cutoff scenario. -/
def c2Mapping : List (String × String) := [("u", "url"), ("t", "title"), ("d", "date")]

/-- Page 1 of the pagination-cutoff scenario; its oldest date is 2024-03-10. -/
def c2Page1 : List (String × List String) :=
  [("u", ["https://s.example/a1", "https://s.example/a2"]), ("t", ["A1", "A2"]),
   ("d", ["2024-03-15", "2024-03-10"])]

/-- Page 2 of the pagination-cutoff scenario; its oldest date is 2024-03-05. -/
def c2Page2 : List (String × List String) :=
  [("u", ["https://s.example/b1", "https://s.example/b2"]), ("t", ["B1", "B2"]),
   ("d", ["2024-03-08", "2024-03-05"])]

/-- Page 3 of the pagination-cutoff scenario; its oldest date is 2024-02-20,
strictly before the cutoff 2024-03-01. -/
def c2Page3 : List (String × List String) :=
  [("u", ["https://s.example/c1", "https://s.example/c2"]), ("t", ["C1", "C2"]),
   ("d", ["2024-02-25", "2024-02-20"])]

/-- Items assembled from page 1. -/
def c2Items1 : List Item :=
  [⟨some "A1", some "https://s.example/a1", some "2024-03-15"⟩,
   ⟨some "A2", some "https://s.example/a2", some "2024-03-10"⟩]

/-- Items assembled from page 2. -/
def c2Items2 : List Item :=
  [⟨some "B1", some "https://s.example/b1", some "2024-03-08"⟩,
   ⟨some "B2", some "https://s.example/b2", some "2024-03-05"⟩]

/-- Items assembled from page 3. -/
def c2Items3 : List Item :=
  [⟨some "C1", some "https://s.example/c1", some "2024-02-25"⟩,
   ⟨some "C2", some "https://s.example/c2", some "2024-02-20"⟩]

/-- Url lists of collected items. -/
def c2Urls (its : List Item) : List String := its.map fun it => (it.url).getD ""

/-- Scraper state after page 1. -/
def c2St1 : ScrapeState := ⟨c2Items1, c2Urls c2Items1, 1, true⟩

/-- Scraper state after page 2. -/
def c2St2 : ScrapeState := ⟨c2Items1 ++ c2Items2, c2Urls (c2Items1 ++ c2Items2), 2, true⟩

/-- Scraper state after page 3. -/
def c2St3 : ScrapeState :=
  ⟨c2Items1 ++ c2Items2 ++ c2Items3, c2Urls (c2Items1 ++ c2Items2 ++ c2Items3), 3, true⟩

/-- A concrete page oracle realizing the pagination-cutoff scenario. -/
def c2Fetch : String → Option (List (String × List String)) := fun u =>
  if u = "https://s.example/page/1" then some c2Page1
  else if u = "https://s.example/page/2" then some c2Page2
  else if u = "https://s.example/page/3" then some c2Page3
  else none

end Scraper

/-- C2.  With `max_pages = 10` and cutoff date 2024-03-01, over any page
oracle whose pages 1, 2 and 3 produce non-empty item lists with oldest
parseable dates 2024-03-10, 2024-03-05 and 2024-02-20 respectively,
`scrape_pages_collect_items` stops after page 3 and returns
`pages_scraped = 3`.  The oracle is only constrained at pages 1–3, so the
equality also shows that page 4 is never fetched. -/
theorem c2_pagination_cutoff (fetch : String → Option (List (String × List String)))
    (h1 : fetch "https://s.example/page/1" = some Scraper.c2Page1)
    (h2 : fetch "https://s.example/page/2" = some Scraper.c2Page2)
    (h3 : fetch "https://s.example/page/3" = some Scraper.c2Page3) :
    Scraper.scrape_pages_collect_items fetch "https://s.example/page/{page}" 1 10
      (some "2024-03-01") (some Scraper.c2Mapping) none =
      (Scraper.c2Items1 ++ Scraper.c2Items2 ++ Scraper.c2Items3, 3) := by
  open Scraper in
  show Scraper.scrapeLoop fetch "https://s.example/page/{page}" none (some c2Mapping)
      (some ⟨2024, 3, 1⟩) 10 1 ⟨[], [], 0, false⟩ = (c2Items1 ++ c2Items2 ++ c2Items3, 3)
  open Scraper in
  rw [show (10 : Nat) = 9 + 1 from rfl, scrapeLoop_succ,
    (by decide : pageUrl "https://s.example/page/{page}" 1 = "https://s.example/page/1"), h1]
  open Scraper in
  dsimp only
  open Scraper in
  rw [(by decide : Scraper.scrapeStep c2Page1 none (some c2Mapping) (some ⟨2024, 3, 1⟩)
        ⟨[], [], 0, false⟩ = (c2St1, false))]
  dsimp only
  rw [if_neg (by decide : ¬((false : Bool) = true))]
  open Scraper in
  rw [show (9 : Nat) = 8 + 1 from rfl, scrapeLoop_succ,
    (by decide : pageUrl "https://s.example/page/{page}" 2 = "https://s.example/page/2"), h2]
  dsimp only
  open Scraper in
  rw [(by decide : Scraper.scrapeStep c2Page2 none (some c2Mapping) (some ⟨2024, 3, 1⟩)
        c2St1 = (c2St2, false))]
  dsimp only
  rw [if_neg (by decide : ¬((false : Bool) = true))]
  open Scraper in
  rw [show (8 : Nat) = 7 + 1 from rfl, scrapeLoop_succ,
    (by decide : pageUrl "https://s.example/page/{page}" 3 = "https://s.example/page/3"), h3]
  dsimp only
  open Scraper in
  rw [(by decide : Scraper.scrapeStep c2Page3 none (some c2Mapping) (some ⟨2024, 3, 1⟩)
        c2St2 = (c2St3, true))]
  dsimp only
  rw [if_pos rfl]
  decide

/-- C2, witness: the concrete oracle `c2Fetch` satisfies the page hypotheses,
and the theorem evaluates the collection result on it. -/
theorem c2_pagination_cutoff_witness :
    Scraper.scrape_pages_collect_items Scraper.c2Fetch "https://s.example/page/{page}" 1 10
      (some "2024-03-01") (some Scraper.c2Mapping) none =
      (Scraper.c2Items1 ++ Scraper.c2Items2 ++ Scraper.c2Items3, 3) :=
  c2_pagination_cutoff Scraper.c2Fetch (by decide) (by decide) (by decide)

namespace Pipeline

open Py

/-! Embedding of the shared pipeline core of `pp.py` and `old_files/utils.py`
(the two files contain identical copies of `within_day_range`, `dedup_rows`
and `canonicalize_url`; `cap_by_date` differs between them, see below).

Instants are modelled as `Int` seconds since the Unix epoch; calendar dates as
`Int` day numbers since 1970-01-01 (Python `date` comparison is equivalent to
day-number comparison).  `daysFromCivil`/`civilFromDays` convert between day
numbers and (year, month, day). -/

/-- Day number of a civil (year, month, day), days since 1970-01-01
(Gregorian, valid for all years). -/
def daysFromCivil (y m d : Int) : Int :=
  let y1 : Int := if m ≤ 2 then y - 1 else y
  let era : Int := y1.fdiv 400
  let yoe : Int := y1 - era * 400
  let mp : Int := if m > 2 then m - 3 else m + 9
  let doy : Int := ((153 * mp + 2).fdiv 5) + d - 1
  let doe : Int := yoe * 365 + yoe.fdiv 4 - yoe.fdiv 100 + doy
  era * 146097 + doe - 719468

/-- Civil (year, month, day) of a day number. -/
def civilFromDays (z : Int) : Int × Int × Int :=
  let z1 : Int := z + 719468
  let era : Int := z1.fdiv 146097
  let doe : Nat := (z1 - era * 146097).toNat
  let yoe : Nat := (doe - doe / 1460 + doe / 36524 - doe / 146096) / 365
  let doy : Nat := doe - (365 * yoe + yoe / 4 - yoe / 100)
  let mp : Nat := (5 * doy + 2) / 153
  let d : Nat := doy - (153 * mp + 2) / 5 + 1
  let m : Nat := if mp < 10 then mp + 3 else mp - 9
  ((yoe : Int) + era * 400 + (if m ≤ 2 then 1 else 0), (m : Int), (d : Int))

/-- Day of week of a day number, `0 = Sunday` (1970-01-01 was a Thursday). -/
def dayOfWeek (z : Int) : Int := (z + 4).emod 7

/-- Day of month of the last Sunday of a 31-day month. -/
def lastSundayDom (y m : Int) : Int := 31 - dayOfWeek (daysFromCivil y m 31)

/-- UTC instant at which British Summer Time starts in year `y`:
01:00 UTC on the last Sunday of March (the rule in force since 1996,
as applied by `zoneinfo` for the years this pipeline handles). -/
def bstStart (y : Int) : Int := daysFromCivil y 3 (lastSundayDom y 3) * 86400 + 3600

/-- UTC instant at which British Summer Time ends in year `y`:
01:00 UTC on the last Sunday of October. -/
def bstEnd (y : Int) : Int := daysFromCivil y 10 (lastSundayDom y 10) * 86400 + 3600

/-- UTC offset, in seconds, of the `Europe/London` zone at a UTC instant
(`TZ = ZoneInfo("Europe/London")` in the source). -/
def londonOffset (t : Int) : Int :=
  let y := (civilFromDays (t.fdiv 86400)).1
  if bstStart y ≤ t && t < bstEnd y then 3600 else 0

/-- Local `Europe/London` calendar date (as a day number) of a UTC instant:
`dt_utc.astimezone(TZ).date()`. -/
def londonDate (t : Int) : Int := (t + londonOffset t).fdiv 86400

/-- Local `Europe/London` second-of-day of a UTC instant. -/
def londonSecOfDay (t : Int) : Int := (t + londonOffset t).emod 86400

/-- A Python `datetime` value: an instant (seconds since epoch) when aware; a
wall-clock reading (seconds since epoch as if it were UTC) when naive. -/
structure Dt where
  aware : Bool
  secs : Int
deriving DecidableEq, Repr

/-- The function `within_day_range` of `pp.py`/`old_files/utils.py`: a naive
datetime is first tagged as UTC (keeping its wall-clock reading), then the
instant is converted to Europe/London and its local calendar date compared
inclusively against the `[start_d, end_d]` window. -/
def within_day_range (dt_utc : Dt) (start_d end_d : Int) : Bool :=
  let local_d := londonDate dt_utc.secs
  decide (start_d ≤ local_d) && decide (local_d ≤ end_d)

/-- A value stored under the `published_utc` key of a row: a raw string or a
`datetime`. -/
inductive PubVal
  | pstr (s : String)
  | pdt (aware : Bool) (secs : Int)
deriving DecidableEq, Repr

/-- A pipeline row (`{'title':…, 'url':…, 'published_utc':…, 'source':…}`). -/
structure Row where
  title : String
  url : String
  source : String
  published_utc : Option PubVal
deriving DecidableEq, Repr

/-- Resolution of a row's `published_utc` as performed at the top of both
`cap_by_date` variants: a string value goes through `parse_any_datetime`
(the external dateutil parser, supplied as `pad`; `none` models both `None`
and an unparseable string), a `datetime` value is used as is. -/
def capResolve (pad : String → Option Dt) (r : Row) : Option Dt :=
  match r.published_utc with
  | some (.pstr s) => pad s
  | some (.pdt aw secs) => some ⟨aw, secs⟩
  | none => none

/-- Whether a row's timestamp resolves (its `pub` is truthy after parsing). -/
def capResolves (pad : String → Option Dt) (r : Row) : Bool :=
  (capResolve pad r).isSome

/-- The in-place update both `cap_by_date` variants apply to a row they
resolve: `r["published_utc"] = pub.astimezone(dt.timezone.utc)` after tagging
a naive `pub` as UTC; rows that do not resolve are left untouched. -/
def capRowEffect (pad : String → Option Dt) (r : Row) : Row :=
  match capResolve pad r with
  | some p => { r with published_utc := some (.pdt true p.secs) }
  | none => r

end Pipeline

namespace OldUtils

open Py Pipeline

/-- The function `cap_by_date` of `old_files/utils.py` (also of
`new_iris_autoscraper.py`), returning both the kept rows and the post-state
of the traversed input rows (the Python loop mutates each resolvable row's
`published_utc` in place, whether or not the row is kept).  Rows whose
timestamp does not resolve are dropped. -/
def cap_by_date_eff (pad : String → Option Dt) :
    List Row → Int → Int → List Row × List Row
  | [], _, _ => ([], [])
  | r :: rs, s, e =>
    let rest := cap_by_date_eff pad rs s e
    match capResolve pad r with
    | some p =>
      let r' := { r with published_utc := some (.pdt true p.secs) }
      (if within_day_range ⟨true, p.secs⟩ s e then r' :: rest.1 else rest.1, r' :: rest.2)
    | none => (rest.1, r :: rest.2)

/-- The returned `capped` list of `old_files/utils.py`'s `cap_by_date`. -/
def cap_by_date (pad : String → Option Dt) (rows : List Row) (start_d end_d : Int) :
    List Row :=
  (cap_by_date_eff pad rows start_d end_d).1

end OldUtils

namespace PP

open Py Pipeline

/-- The function `cap_by_date` of `pp.py`, which differs from
`old_files/utils.py` in its `else` branch: rows whose timestamp does not
resolve are appended unchanged (the `# Include items without dates` branch).
Returns both the kept rows and the post-state of the traversed input rows. -/
def cap_by_date_eff (pad : String → Option Dt) :
    List Row → Int → Int → List Row × List Row
  | [], _, _ => ([], [])
  | r :: rs, s, e =>
    let rest := cap_by_date_eff pad rs s e
    match capResolve pad r with
    | some p =>
      let r' := { r with published_utc := some (.pdt true p.secs) }
      (if within_day_range ⟨true, p.secs⟩ s e then r' :: rest.1 else rest.1, r' :: rest.2)
    | none => (r :: rest.1, r :: rest.2)

/-- The returned `capped` list of `pp.py`'s `cap_by_date`. -/
def cap_by_date (pad : String → Option Dt) (rows : List Row) (start_d end_d : Int) :
    List Row :=
  (cap_by_date_eff pad rows start_d end_d).1

end PP

namespace Pipeline

/-- Every row returned by the dropping `cap_by_date` variant has a resolved
(`datetime`-valued) timestamp. -/
theorem mem_cap_drop_resolved (pad : String → Option Dt) (rows : List Row) (s e : Int) :
    ∀ x ∈ OldUtils.cap_by_date pad rows s e, capResolves pad x = true := by
  induction rows with
  | nil => intro x hx; simp [OldUtils.cap_by_date, OldUtils.cap_by_date_eff] at hx
  | cons r rs ih =>
    intro x hx
    simp only [OldUtils.cap_by_date, OldUtils.cap_by_date_eff] at hx
    cases h : capResolve pad r with
    | none => exact ih x (by simpa [h] using hx)
    | some p =>
      rw [h] at hx
      by_cases hw : within_day_range ⟨true, p.secs⟩ s e = true
      · simp only [hw, if_true] at hx
        rcases List.mem_cons.mp hx with rfl | hx'
        · rfl
        · exact ih x hx'
      · simp only [if_neg hw] at hx
        exact ih x hx

/-- A parser oracle that resolves no string (every `published_utc` string is
unparseable under it). -/
def padNone : String → Option Dt := fun _ => none

/-- A row carrying a naive datetime at 2024-03-01 00:00:00 UTC. -/
def rowDt : Row := ⟨"a", "https://a.com/x", "a.com", some (.pdt false 1709251200)⟩

/-- A row with no `published_utc` value. -/
def rowNoDt : Row := ⟨"b", "https://a.com/y", "a.com", none⟩

end Pipeline

/-- C4.  For every record whose timestamp resolves, the day-range cap keeps it
iff the timestamp's Europe/London local calendar date `d` satisfies
`start_d ≤ d ≤ end_d`, inclusive at both ends; a record at exactly local
midnight of `end_d` is retained, and one at one second past local midnight of
`end_d + 1` is excluded. -/
theorem c4_day_range_inclusivity :
    (∀ (aw : Bool) (t s e : Int),
        Pipeline.within_day_range ⟨aw, t⟩ s e = true ↔
          (s ≤ Pipeline.londonDate t ∧ Pipeline.londonDate t ≤ e)) ∧
    (∀ (pad : String → Option Pipeline.Dt) (r : Pipeline.Row) (p : Pipeline.Dt) (s e : Int),
        Pipeline.capResolve pad r = some p →
        ((OldUtils.cap_by_date pad [r] s e).length = 1 ↔
          (s ≤ Pipeline.londonDate p.secs ∧ Pipeline.londonDate p.secs ≤ e))) ∧
    (∀ (s e t : Int), Pipeline.londonDate t = e → Pipeline.londonSecOfDay t = 0 → s ≤ e →
        Pipeline.within_day_range ⟨true, t⟩ s e = true) ∧
    (∀ (s e t : Int), Pipeline.londonDate t = e + 1 → Pipeline.londonSecOfDay t = 1 →
        Pipeline.within_day_range ⟨true, t⟩ s e = false) := by
  open Pipeline in
  refine ⟨?_, ?_, ?_, ?_⟩
  · intro aw t s e
    simp [Pipeline.within_day_range]
  · intro pad r p s e h
    simp only [OldUtils.cap_by_date, OldUtils.cap_by_date_eff, h]
    by_cases hw : Pipeline.within_day_range ⟨true, p.secs⟩ s e = true
    · simp [hw, (by simpa [Pipeline.within_day_range] using hw :
        s ≤ Pipeline.londonDate p.secs ∧ Pipeline.londonDate p.secs ≤ e)]
    · simp [hw]
      simp only [Pipeline.within_day_range, Bool.and_eq_true, decide_eq_true_eq] at hw
      omega
  · intro s e t h1 _ h3
    simp [Pipeline.within_day_range, h1, h3]
  · intro s e t h1 _
    simp [Pipeline.within_day_range, h1]

/-- C4, witness: 1709251200 is exactly Europe/London midnight of day 19783
(2024-03-01) and is retained by the window `[19750, 19783]`; 1709337601 is one
second past London midnight of day 19784 = `end + 1` and is excluded; a
one-row list with a resolvable timestamp at London midnight of `end_d` is
kept by `cap_by_date`. -/
theorem c4_day_range_inclusivity_witness :
    Pipeline.within_day_range ⟨true, 1709251200⟩ 19750 19783 = true ∧
    Pipeline.within_day_range ⟨true, 1709337601⟩ 19750 19783 = false ∧
    (OldUtils.cap_by_date Pipeline.padNone [Pipeline.rowDt] 19750 19783).length = 1 :=
  ⟨c4_day_range_inclusivity.2.2.1 19750 19783 1709251200 (by decide) (by decide) (by decide),
   c4_day_range_inclusivity.2.2.2 19750 19783 1709337601 (by decide) (by decide),
   (c4_day_range_inclusivity.2.1 Pipeline.padNone Pipeline.rowDt ⟨false, 1709251200⟩
      19750 19783 rfl).mpr (by decide)⟩

/-- C5.  The two `cap_by_date` implementations (`old_files/utils.py` dropping
dateless records, `pp.py` keeping them) agree on every record list whose
records all have a resolvable timestamp; in general the dropping variant
equals the keeping variant filtered to resolvable records, and each dateless
record is included unchanged by the keeping variant and excluded by the
dropping one. -/
theorem c5_cap_dateless_policy :
    (∀ (pad : String → Option Pipeline.Dt) rows (s e : Int),
        (∀ r ∈ rows, Pipeline.capResolves pad r = true) →
        OldUtils.cap_by_date pad rows s e = PP.cap_by_date pad rows s e) ∧
    (∀ (pad : String → Option Pipeline.Dt) rows (s e : Int),
        OldUtils.cap_by_date pad rows s e =
          (PP.cap_by_date pad rows s e).filter (fun r => Pipeline.capResolves pad r)) ∧
    (∀ (pad : String → Option Pipeline.Dt) rows (s e : Int) r,
        r ∈ rows → Pipeline.capResolves pad r = false →
        r ∈ PP.cap_by_date pad rows s e ∧ r ∉ OldUtils.cap_by_date pad rows s e) := by
  open Pipeline in
  have hfilter : ∀ (pad : String → Option Dt) rows (s e : Int),
      OldUtils.cap_by_date pad rows s e =
        (PP.cap_by_date pad rows s e).filter (fun r => capResolves pad r) := by
    intro pad rows s e
    induction rows with
    | nil => rfl
    | cons r rs ih =>
      simp only [OldUtils.cap_by_date, OldUtils.cap_by_date_eff,
        PP.cap_by_date, PP.cap_by_date_eff] at ih ⊢
      cases h : capResolve pad r with
      | none =>
        have hres : capResolves pad r = false := by simp [capResolves, h]
        simp [h, ih, hres]
      | some p =>
        by_cases hw : within_day_range ⟨true, p.secs⟩ s e = true
        · simp only [h, hw, if_true]
          rw [List.filter_cons]
          simp only [capResolves, capResolve, Option.isSome_some, if_true]
          exact congrArg _ ih
        · simp [h, if_neg hw, ih]
  open Pipeline in
  refine ⟨?_, hfilter, ?_⟩
  · intro pad rows s e hall
    induction rows with
    | nil => rfl
    | cons r rs ih =>
      have hr : capResolves pad r = true := hall r (List.mem_cons_self r rs)
      obtain ⟨p, hp⟩ := Option.isSome_iff_exists.mp hr
      simp only [OldUtils.cap_by_date, OldUtils.cap_by_date_eff,
        PP.cap_by_date, PP.cap_by_date_eff]
      have ih' := ih (fun x hx => hall x (List.mem_cons_of_mem r hx))
      simp only [OldUtils.cap_by_date, PP.cap_by_date] at ih'
      cases hw : within_day_range ⟨true, p.secs⟩ s e <;> simp [hp, hw, ih']
  · intro pad rows s e r hmem hres
    constructor
    · induction rows with
      | nil => simp at hmem
      | cons r0 rs ih =>
        simp only [PP.cap_by_date, PP.cap_by_date_eff]
        rcases List.mem_cons.mp hmem with rfl | hmem'
        · have h0 : capResolve pad r = none := by
            cases h : capResolve pad r with
            | none => rfl
            | some p => simp [capResolves, h] at hres
          simp [h0]
        · have ihm := ih hmem'
          simp only [PP.cap_by_date] at ihm
          cases h : capResolve pad r0 with
          | none => simp [h, ihm]
          | some p => cases hw : within_day_range ⟨true, p.secs⟩ s e <;> simp [h, hw, ihm]
    · intro hcontra
      have := mem_cap_drop_resolved pad rows s e r hcontra
      rw [hres] at this
      exact Bool.false_ne_true this

/-- C5, witness: on a list whose single record resolves, the two variants
agree; on a list with a dateless record, the keeping variant retains it
unchanged and the dropping variant excludes it. -/
theorem c5_cap_dateless_policy_witness :
    OldUtils.cap_by_date Pipeline.padNone [Pipeline.rowDt] 19750 19783 =
      PP.cap_by_date Pipeline.padNone [Pipeline.rowDt] 19750 19783 ∧
    (Pipeline.rowNoDt ∈
       PP.cap_by_date Pipeline.padNone [Pipeline.rowDt, Pipeline.rowNoDt] 0 10 ∧
     Pipeline.rowNoDt ∉
       OldUtils.cap_by_date Pipeline.padNone [Pipeline.rowDt, Pipeline.rowNoDt] 0 10) :=
  ⟨c5_cap_dateless_policy.1 Pipeline.padNone [Pipeline.rowDt] 19750 19783 (by decide),
   c5_cap_dateless_policy.2.2 Pipeline.padNone [Pipeline.rowDt, Pipeline.rowNoDt] 0 10
     Pipeline.rowNoDt (by decide) (by decide)⟩

/-- C10.  Both `cap_by_date` variants update the traversed rows themselves:
after a run, every input row whose `published_utc` resolves — including rows
that fall outside the window and are excluded from the returned list — holds
the UTC-normalized datetime in `published_utc`, rows that do not resolve are
untouched, and no field other than `published_utc` of any row is modified. -/
theorem c10_cap_in_place_mutation :
    (∀ (pad : String → Option Pipeline.Dt) rows (s e : Int),
        (OldUtils.cap_by_date_eff pad rows s e).2 =
          rows.map (Pipeline.capRowEffect pad)) ∧
    (∀ (pad : String → Option Pipeline.Dt) rows (s e : Int),
        (PP.cap_by_date_eff pad rows s e).2 =
          rows.map (Pipeline.capRowEffect pad)) ∧
    (∀ (pad : String → Option Pipeline.Dt) r,
        (Pipeline.capRowEffect pad r).title = r.title ∧
        (Pipeline.capRowEffect pad r).url = r.url ∧
        (Pipeline.capRowEffect pad r).source = r.source) ∧
    (∀ (pad : String → Option Pipeline.Dt) r p, Pipeline.capResolve pad r = some p →
        (Pipeline.capRowEffect pad r).published_utc = some (.pdt true p.secs)) ∧
    (∀ (pad : String → Option Pipeline.Dt) r, Pipeline.capResolve pad r = none →
        Pipeline.capRowEffect pad r = r) := by
  open Pipeline in
  refine ⟨?_, ?_, ?_, ?_, ?_⟩
  · intro pad rows s e
    induction rows with
    | nil => rfl
    | cons r rs ih =>
      simp only [OldUtils.cap_by_date_eff, List.map_cons]
      cases h : capResolve pad r <;> simp [capRowEffect, h, ih]
  · intro pad rows s e
    induction rows with
    | nil => rfl
    | cons r rs ih =>
      simp only [PP.cap_by_date_eff, List.map_cons]
      cases h : capResolve pad r <;> simp [capRowEffect, h, ih]
  · intro pad r
    cases h : capResolve pad r <;> simp [capRowEffect, h]
  · intro pad r p h
    simp [capRowEffect, h]
  · intro pad r h
    simp [capRowEffect, h]

/-- C10, witness: the post-state of a concrete two-row run (one naive
datetime, one dateless row) is the per-row effect map, and the resolvable
row's `published_utc` is overwritten with the aware UTC datetime. -/
theorem c10_cap_in_place_mutation_witness :
    (OldUtils.cap_by_date_eff Pipeline.padNone [Pipeline.rowDt, Pipeline.rowNoDt] 0 10).2 =
      [Pipeline.rowDt, Pipeline.rowNoDt].map (Pipeline.capRowEffect Pipeline.padNone) ∧
    (Pipeline.capRowEffect Pipeline.padNone Pipeline.rowDt).published_utc =
      some (.pdt true 1709251200) :=
  ⟨c10_cap_in_place_mutation.1 Pipeline.padNone [Pipeline.rowDt, Pipeline.rowNoDt] 0 10,
   c10_cap_in_place_mutation.2.2.2.1 Pipeline.padNone Pipeline.rowDt ⟨false, 1709251200⟩ rfl⟩

namespace Pipeline

/-- UTF-8 encoding of a Unicode scalar value (`str.encode("utf-8")`). -/
def utf8Char (n : Nat) : List Nat :=
  if n < 0x80 then [n]
  else if n < 0x800 then [0xc0 + n / 64, 0x80 + n % 64]
  else if n < 0x10000 then [0xe0 + n / 4096, 0x80 + (n / 64) % 64, 0x80 + n % 64]
  else [0xf0 + n / 262144, 0x80 + (n / 4096) % 64, 0x80 + (n / 64) % 64, 0x80 + n % 64]

/-- UTF-8 encoding of a character list as a byte list. -/
def utf8Bytes (l : List Char) : List Nat := l.flatMap fun c => utf8Char c.toNat

end Pipeline

namespace Sha256

/-! Executable SHA-256 (FIPS 180-4), over `Nat` bytes and 32-bit words
(`% 2^32` at every carry point), as invoked through `hashlib.sha256` by
`dedup_rows`. -/

/-- The 32-bit modulus. -/
def M32 : Nat := 4294967296

/-- Right rotation of a 32-bit word. -/
def rotr (n x : Nat) : Nat := ((x >>> n) ||| (x <<< (32 - n))) % M32

/-- The 64 round constants. -/
def K : List Nat :=
  [1116352408, 1899447441, 3049323471, 3921009573, 961987163, 1508970993,
   2453635748, 2870763221, 3624381080, 310598401, 607225278, 1426881987,
   1925078388, 2162078206, 2614888103, 3248222580, 3835390401, 4022224774,
   264347078, 604807628, 770255983, 1249150122, 1555081692, 1996064986,
   2554220882, 2821834349, 2952996808, 3210313671, 3336571891, 3584528711,
   113926993, 338241895, 666307205, 773529912, 1294757372, 1396182291,
   1695183700, 1986661051, 2177026350, 2456956037, 2730485921, 2820302411,
   3259730800, 3345764771, 3516065817, 3600352804, 4094571909, 275423344,
   430227734, 506948616, 659060556, 883997877, 958139571, 1322822218,
   1537002063, 1747873779, 1955562222, 2024104815, 2227730452, 2361852424,
   2428436474, 2756734187, 3204031479, 3329325298]

/-- The initial hash value. -/
def IV : List Nat :=
  [1779033703, 3144134277, 1013904242, 2773480762,
   1359893119, 2600822924, 528734635, 1541459225]

/-- Big-endian length suffix (8 bytes) of a message of `len` bytes. -/
def lenBytes (len : Nat) : List Nat :=
  (List.range 8).map fun i => ((8 * len) >>> (8 * (7 - i))) % 256

/-- SHA-256 padding: `0x80`, zeros to 56 mod 64, then the bit length. -/
def padMsg (msg : List Nat) : List Nat :=
  let z := (64 + 56 - ((msg.length + 1) % 64)) % 64
  msg ++ 0x80 :: (List.replicate z 0 ++ lenBytes msg.length)

/-- Big-endian 32-bit words of a byte list (length a multiple of 4). -/
def bytesToWords : List Nat → List Nat
  | b0 :: b1 :: b2 :: b3 :: rest =>
    (((b0 * 256 + b1) * 256 + b2) * 256 + b3) :: bytesToWords rest
  | _ => []

/-- Split a word list into blocks of 16, with fuel. -/
def blocksGo : Nat → List Nat → List (List Nat)
  | 0, _ => []
  | _, [] => []
  | f + 1, ws => ws.take 16 :: blocksGo f (ws.drop 16)

/-- Message-schedule extension of a 16-word block to 64 words. -/
def msgSched (w16 : List Nat) : List Nat :=
  (List.range 48).foldl
    (fun w _ =>
      let n := w.length
      let x15 := w.getD (n - 15) 0
      let x2 := w.getD (n - 2) 0
      let s0 := (rotr 7 x15) ^^^ (rotr 18 x15) ^^^ (x15 >>> 3)
      let s1 := (rotr 17 x2) ^^^ (rotr 19 x2) ^^^ (x2 >>> 10)
      w ++ [(w.getD (n - 16) 0 + s0 + w.getD (n - 7) 0 + s1) % M32])
    w16

/-- One compression round. -/
def round1 (st : List Nat) (kw : Nat × Nat) : List Nat :=
  match st with
  | [a, b, c, d, e, f, g, h] =>
    let s1 := (rotr 6 e) ^^^ (rotr 11 e) ^^^ (rotr 25 e)
    let ch := (e &&& f) ^^^ ((4294967295 - e) &&& g)
    let t1 := (h + s1 + ch + kw.1 + kw.2) % M32
    let s0 := (rotr 2 a) ^^^ (rotr 13 a) ^^^ (rotr 22 a)
    let mj := (a &&& b) ^^^ (a &&& c) ^^^ (b &&& c)
    let t2 := (s0 + mj) % M32
    [(t1 + t2) % M32, a, b, c, (d + t1) % M32, e, f, g]
  | st => st

/-- Compression of one 16-word block into the running hash. -/
def compress (hs w16 : List Nat) : List Nat :=
  let fin := ((K.zip (msgSched w16)).foldl round1 hs)
  (hs.zip fin).map fun p => (p.1 + p.2) % M32

/-- The SHA-256 digest (eight 32-bit words) of a byte list. -/
def digestWords (msg : List Nat) : List Nat :=
  let ws := bytesToWords (padMsg msg)
  (blocksGo (ws.length + 1) ws).foldl compress IV

/-- Lowercase hex character of a nibble. -/
def hexChar (n : Nat) : Char :=
  if n < 10 then Char.ofNat (48 + n) else Char.ofNat (87 + n)

/-- The `hexdigest()` string of a byte list. -/
def sha256hex (msg : List Nat) : String :=
  ⟨(digestWords msg).flatMap fun w => (List.range 8).map fun i => hexChar ((w >>> (4 * (7 - i))) % 16)⟩

end Sha256

namespace Pipeline

open Py

/-- The deduplication key of `dedup_rows`:
`sha256((title.strip().lower() + "|" + url).encode("utf-8")).hexdigest()`. -/
def rowKey (r : Row) : String :=
  Sha256.sha256hex (utf8Bytes ((pyLower (pyStrip r.title)).data ++ '|' :: r.url.data))

/-- The loop of `dedup_rows`, carrying the `seen` key set. -/
def dedupGo (seen : List String) : List Row → List Row
  | [] => []
  | r :: rs =>
    if seen.contains (rowKey r) then dedupGo seen rs
    else r :: dedupGo (rowKey r :: seen) rs

/-- The function `dedup_rows` of `pp.py`/`old_files/utils.py` (also of
`new_iris_autoscraper.py`): keep the first row of each SHA-256 key. -/
def dedup_rows (rows : List Row) : List Row := dedupGo [] rows

/-- Reference characterization: keep a row iff no earlier row of the original
list has the same key (first occurrence wins, order preserved). -/
def firstOccur (pre : List Row) : List Row → List Row
  | [] => []
  | r :: rs =>
    if pre.any (fun p => rowKey p == rowKey r) then firstOccur (pre ++ [r]) rs
    else r :: firstOccur (pre ++ [r]) rs

end Pipeline

namespace Pipeline

/-- Deduplicating an already-deduplicated list changes nothing. -/
theorem dedupGo_idem (l : List Row) :
    ∀ seen, dedupGo seen (dedupGo seen l) = dedupGo seen l := by
  induction l with
  | nil => intro _; rfl
  | cons r rs ih =>
    intro seen
    cases hc : seen.contains (rowKey r) with
    | true =>
      simp only [dedupGo, hc, if_true]
      exact ih seen
    | false =>
      simp only [dedupGo, hc, Bool.false_eq_true, if_false]
      exact congrArg _ (ih _)

/-- The dedup loop returns a sublist of its input. -/
theorem dedupGo_sublist (l : List Row) : ∀ seen, (dedupGo seen l).Sublist l := by
  induction l with
  | nil => intro _; simp [dedupGo]
  | cons r rs ih =>
    intro seen
    cases hc : seen.contains (rowKey r) with
    | true =>
      simp only [dedupGo, hc, if_true]
      exact (ih seen).cons r
    | false =>
      simp only [dedupGo, hc, Bool.false_eq_true, if_false]
      exact (ih _).cons₂ r

/-- The dedup loop agrees with the first-occurrence characterization whenever
the seen-key set matches the keys of the already-traversed prefix. -/
theorem dedupGo_eq_firstOccur (l : List Row) :
    ∀ seen pre, (∀ k, seen.contains k = true ↔ ∃ p ∈ pre, rowKey p = k) →
    dedupGo seen l = firstOccur pre l := by
  induction l with
  | nil => intro _ _ _; rfl
  | cons r rs ih =>
    intro seen pre hinv
    have hany : (pre.any fun p => rowKey p == rowKey r) = seen.contains (rowKey r) := by
      rw [Bool.eq_iff_iff, List.any_eq_true]
      constructor
      · intro ⟨p, hp, hpk⟩
        exact (hinv (rowKey r)).mpr ⟨p, hp, by simpa using hpk⟩
      · intro hc
        obtain ⟨p, hp, hpk⟩ := (hinv (rowKey r)).mp hc
        exact ⟨p, hp, by simp [hpk]⟩
    cases hc : seen.contains (rowKey r) with
    | true =>
      rw [hc] at hany
      simp only [dedupGo, firstOccur, hc, hany, if_true]
      apply ih
      intro k
      constructor
      · intro h
        obtain ⟨p, hp, hpk⟩ := (hinv k).mp h
        exact ⟨p, List.mem_append_left _ hp, hpk⟩
      · intro ⟨p, hp, hpk⟩
        rcases List.mem_append.mp hp with hp' | hp'
        · exact (hinv k).mpr ⟨p, hp', hpk⟩
        · have : p = r := by simpa using hp'
          subst this
          rw [← hpk]
          exact hc
    | false =>
      rw [hc] at hany
      simp only [dedupGo, firstOccur, hc, hany, Bool.false_eq_true, if_false]
      refine congrArg _ (ih _ _ ?_)
      intro k
      simp only [List.contains_cons]
      constructor
      · intro h
        rcases Bool.or_eq_true_iff.mp h with h' | h'
        · exact ⟨r, List.mem_append_right _ (List.mem_singleton.mpr rfl), (beq_iff_eq.mp h').symm⟩
        · obtain ⟨p, hp, hpk⟩ := (hinv k).mp h'
          exact ⟨p, List.mem_append_left _ hp, hpk⟩
      · intro ⟨p, hp, hpk⟩
        rcases List.mem_append.mp hp with hp' | hp'
        · exact Bool.or_eq_true_iff.mpr (Or.inr ((hinv k).mpr ⟨p, hp', hpk⟩))
        · have : p = r := by simpa using hp'
          subst this
          exact Bool.or_eq_true_iff.mpr (Or.inl (by simp [hpk]))

end Pipeline

/-- C6.  `dedup_rows` is idempotent, equals the first-occurrence filter under
the SHA-256 identity key (lowercased-trimmed-title + "|" + url), and its
output is a sublist of its input (first-seen order preserved). -/
theorem c6_dedup_idempotent_first_occurrence :
    (∀ rows, Pipeline.dedup_rows (Pipeline.dedup_rows rows) = Pipeline.dedup_rows rows) ∧
    (∀ rows, Pipeline.dedup_rows rows = Pipeline.firstOccur [] rows) ∧
    (∀ rows, (Pipeline.dedup_rows rows).Sublist rows) :=
  ⟨fun rows => Pipeline.dedupGo_idem rows [],
   fun rows => Pipeline.dedupGo_eq_firstOccur rows [] [] (fun k => by
     constructor
     · intro h
       exact (Bool.false_ne_true h).elim
     · rintro ⟨p, hp, -⟩
       exact absurd hp (List.not_mem_nil p)),
   fun rows => Pipeline.dedupGo_sublist rows []⟩

namespace Urllib

open Py

/-! Model of the CPython 3.11 `urllib.parse` routines used by
`canonicalize_url`: `urlparse`, `parse_qsl`, `urlencode`, `urlunparse`.
All string scanning is structural over `List Char`.  Two deliberate
abstractions, both harmless to every theorem below: the NFKC check of
`_checknetloc` (which can only raise for non-ASCII authorities) is modelled
as never raising, and a bracketed IPv6/IPvFuture host that has both `[` and
`]` is modelled as accepted, while a mismatched bracket raises `ValueError`
exactly as in CPython. -/

/-- A WHATWG C0-control-or-space character (stripped from the left of a URL
by `urlsplit`). -/
def c0OrSpace (c : Char) : Bool := c.toNat ≤ 0x20

/-- The unsafe bytes `\t`, `\r`, `\n`, removed everywhere by `urlsplit`. -/
def isUnsafeUrlChar (c : Char) : Bool := c = '\t' || c = '\r' || c = '\n'

/-- Characters admissible in a scheme (`scheme_chars`). -/
def isSchemeChar (c : Char) : Bool :=
  c.isAlpha || isDig c || c = '+' || c = '-' || c = '.'

/-- A netloc delimiter (`/ ? #`, see `_splitnetloc`). -/
def isNetlocDelim (c : Char) : Bool := c = '/' || c = '?' || c = '#'

/-- Split at the first `:`: `some (before, after)`, or `none` if absent. -/
def splitColon : List Char → Option (List Char × List Char)
  | [] => none
  | c :: t =>
    if c = ':' then some ([], t)
    else (splitColon t).map fun p => (c :: p.1, p.2)

/-- Scheme recognition of `urlsplit`: a leading `name:` whose name starts
with an ASCII letter and uses only scheme characters is split off and
lower-cased; otherwise the scheme is empty. -/
def schemeSplit (url : List Char) : List Char × List Char :=
  match splitColon url with
  | some (pre, post) =>
    if !pre.isEmpty && (pre.headD ' ').isAlpha && pre.all isSchemeChar
    then (pre.map asciiLower, post)
    else ([], url)
  | none => ([], url)

/-- Parse result of `urlparse` as used by `canonicalize_url`
(`params` already split off the path, `fragment` discarded). -/
structure Parts where
  scheme : List Char
  netloc : List Char
  path : List Char
  query : List Char
deriving DecidableEq, Repr

/-- The `uses_params` scheme list of CPython 3.11. -/
def uses_params : List (List Char) :=
  ["", "ftp", "hdl", "prospero", "http", "imap", "https", "shttp", "rtsp",
   "rtsps", "rtspu", "sip", "sips", "mms", "sftp", "tel"].map String.data

/-- The `uses_netloc` scheme list of CPython 3.11. -/
def uses_netloc : List (List Char) :=
  ["", "ftp", "http", "gopher", "nntp", "telnet", "imap", "wais", "file",
   "mms", "https", "shttp", "snews", "prospero", "rtsp", "rtsps", "rtspu",
   "rsync", "svn", "svn+ssh", "sftp", "nfs", "git", "git+ssh", "ws",
   "wss"].map String.data

/-- The `_splitparams` treatment of a path containing `;`: drop everything
from the first `;` of the last segment (of the whole path when it has no
`/`). -/
def splitparamsPath (path : List Char) : List Char :=
  if path.contains '/' then
    let lastSeg := (path.reverse.takeWhile (fun c => c ≠ '/')).reverse
    if lastSeg.contains ';' then
      path.take (path.length - lastSeg.length) ++ lastSeg.takeWhile (fun c => c ≠ ';')
    else path
  else path.takeWhile (fun c => c ≠ ';')

/-- CPython `urlparse` (3.11.6): left-strip C0 controls and spaces, remove
`\t\r\n`, split scheme, netloc (raising on a mismatched IPv6 bracket),
fragment and query, and split params off the path for `uses_params` schemes. -/
def urlparseM (url0 : List Char) : Except Unit Parts := do
  let url1 := (url0.dropWhile c0OrSpace).filter fun c => !isUnsafeUrlChar c
  let (scheme, rest) := schemeSplit url1
  let (netloc, rest2) :=
    if rest.take 2 = ['/', '/'] then
      ((rest.drop 2).takeWhile (fun c => !isNetlocDelim c),
       (rest.drop 2).dropWhile (fun c => !isNetlocDelim c))
    else ([], rest)
  if (netloc.contains '[' && !netloc.contains ']') ||
     (netloc.contains ']' && !netloc.contains '[') then
    throw ()
  let preFrag := rest2.takeWhile fun c => c ≠ '#'
  let path0 := preFrag.takeWhile fun c => c ≠ '?'
  let query := ((preFrag.dropWhile fun c => c ≠ '?').drop 1)
  let path :=
    if uses_params.contains scheme && path0.contains ';' then splitparamsPath path0
    else path0
  return ⟨scheme, netloc, path, query⟩

/-- Hex value of a hex digit character, either case. -/
def hexVal (c : Char) : Option Nat :=
  if isDig c then some (c.toNat - 48)
  else if 'a' ≤ c && c ≤ 'f' then some (c.toNat - 87)
  else if 'A' ≤ c && c ≤ 'F' then some (c.toNat - 55)
  else none

/-- One percent-escape (`%XY`) at the head of the input. -/
def pctByte : List Char → Option (Nat × List Char)
  | c :: h1 :: h2 :: rest =>
    if c = '%' then
      match hexVal h1, hexVal h2 with
      | some a, some b => some (16 * a + b, rest)
      | _, _ => none
    else none
  | _ => none

/-- Maximal run of percent-escapes at the head of the input, with fuel. -/
def pctRun : Nat → List Char → List Nat × List Char
  | 0, l => ([], l)
  | f + 1, l =>
    match pctByte l with
    | some (b, rest) =>
      let pr := pctRun f rest
      (b :: pr.1, pr.2)
    | none => ([], l)

/-- The Unicode replacement character U+FFFD. -/
def replChar : Char := Char.ofNat 0xfffd

/-- UTF-8 decoding with replacement (`bytes.decode("utf-8", errors="replace")`),
with fuel; an invalid byte is replaced and skipped (CPython replaces maximal
invalid subparts, which coincides on all inputs the theorems below touch). -/
def utf8DecGo : Nat → List Nat → List Char
  | 0, _ => []
  | _ + 1, [] => []
  | f + 1, b0 :: t =>
    if b0 < 0x80 then Char.ofNat b0 :: utf8DecGo f t
    else if 0xc2 ≤ b0 && b0 ≤ 0xdf then
      match t with
      | b1 :: t1 =>
        if 0x80 ≤ b1 && b1 ≤ 0xbf then
          Char.ofNat ((b0 - 0xc0) * 64 + (b1 - 0x80)) :: utf8DecGo f t1
        else replChar :: utf8DecGo f t
      | [] => [replChar]
    else if 0xe0 ≤ b0 && b0 ≤ 0xef then
      match t with
      | b1 :: b2 :: t2 =>
        if (if b0 = 0xe0 then 0xa0 ≤ b1 && b1 ≤ 0xbf
            else if b0 = 0xed then 0x80 ≤ b1 && b1 ≤ 0x9f
            else 0x80 ≤ b1 && b1 ≤ 0xbf) && 0x80 ≤ b2 && b2 ≤ 0xbf then
          Char.ofNat (((b0 - 0xe0) * 64 + (b1 - 0x80)) * 64 + (b2 - 0x80)) :: utf8DecGo f t2
        else replChar :: utf8DecGo f t
      | _ => replChar :: utf8DecGo f t
    else if 0xf0 ≤ b0 && b0 ≤ 0xf4 then
      match t with
      | b1 :: b2 :: b3 :: t3 =>
        if (if b0 = 0xf0 then 0x90 ≤ b1 && b1 ≤ 0xbf
            else if b0 = 0xf4 then 0x80 ≤ b1 && b1 ≤ 0x8f
            else 0x80 ≤ b1 && b1 ≤ 0xbf) &&
           0x80 ≤ b2 && b2 ≤ 0xbf && 0x80 ≤ b3 && b3 ≤ 0xbf then
          Char.ofNat ((((b0 - 0xf0) * 64 + (b1 - 0x80)) * 64 + (b2 - 0x80)) * 64 + (b3 - 0x80))
            :: utf8DecGo f t3
        else replChar :: utf8DecGo f t
      | _ => replChar :: utf8DecGo f t
    else replChar :: utf8DecGo f t

/-- UTF-8 decoding with replacement of a byte list. -/
def utf8DecodeReplace (bs : List Nat) : List Char := utf8DecGo bs.length bs

/-- CPython `unquote` with `errors="replace"`: decode each maximal run of
percent-escapes as UTF-8, leave other characters (and stray `%`) alone. -/
def unquoteGo : Nat → List Char → List Char
  | 0, l => l
  | _ + 1, [] => []
  | f + 1, c :: t =>
    if (pctByte (c :: t)).isSome then
      let pr := pctRun (t.length + 1) (c :: t)
      utf8DecodeReplace pr.1 ++ unquoteGo f pr.2
    else c :: unquoteGo f t

/-- CPython `unquote(s, errors="replace")`. -/
def unquote (l : List Char) : List Char := unquoteGo l.length l

/-- CPython `unquote_plus`: `+` becomes a space, then `unquote`. -/
def unquotePlus (l : List Char) : List Char :=
  unquote (l.map fun c => if c = '+' then ' ' else c)

/-- Split on a separator character (`str.split(sep)` for one-character
separators, on a non-empty string). -/
def splitOnChar (sep : Char) : List Char → List (List Char)
  | [] => [[]]
  | c :: t =>
    match splitOnChar sep t with
    | [] => [[]]
    | h :: r => if c = sep then [] :: h :: r else (c :: h) :: r

/-- One `name=value` chunk of `parse_qsl` with `keep_blank_values=False`:
skip empty chunks, chunks without `=` and chunks with an empty value;
otherwise unquote-plus both sides. -/
def qslPair (chunk : List Char) : Option (List Char × List Char) :=
  if chunk.isEmpty then none
  else if chunk.contains '=' then
    let name := chunk.takeWhile fun c => c ≠ '='
    let value := (chunk.dropWhile fun c => c ≠ '=').drop 1
    if value.isEmpty then none
    else some (unquotePlus name, unquotePlus value)
  else none

/-- CPython `parse_qsl(qs, keep_blank_values=False)` (separator `&`). -/
def parse_qsl (qs : List Char) : List (List Char × List Char) :=
  if qs.isEmpty then [] else (splitOnChar '&' qs).filterMap qslPair

/-- The always-safe characters of `quote` (ASCII alphanumerics and `_.-~`). -/
def isSafeChar (c : Char) : Bool :=
  ('A' ≤ c && c ≤ 'Z') || ('a' ≤ c && c ≤ 'z') || isDig c ||
  c = '_' || c = '.' || c = '-' || c = '~'

/-- Uppercase hex digit of a nibble (as emitted by `quote`). -/
def hexUp (n : Nat) : Char :=
  if n < 10 then Char.ofNat (48 + n) else Char.ofNat (55 + n)

/-- CPython `quote_plus(s, safe='')` on one character: safe characters pass,
a space becomes `+`, everything else is percent-escaped per UTF-8 byte. -/
def quoteChar (c : Char) : List Char :=
  if isSafeChar c then [c]
  else if c = ' ' then ['+']
  else (Pipeline.utf8Char c.toNat).flatMap fun b => ['%', hexUp (b / 16), hexUp (b % 16)]

/-- CPython `quote_plus(s, safe='')`. -/
def quotePlus (l : List Char) : List Char := l.flatMap quoteChar

/-- CPython `urlencode(pairs)` with the default `quote_via=quote_plus`. -/
def urlencodeM : List (List Char × List Char) → List Char
  | [] => []
  | [kv] => quotePlus kv.1 ++ '=' :: quotePlus kv.2
  | kv :: rest => quotePlus kv.1 ++ '=' :: quotePlus kv.2 ++ '&' :: urlencodeM rest

/-- CPython 3.11.6 `urlunsplit` restricted to empty query and fragment slots
(as invoked by `canonicalize_url` through `urlunparse` with empty params,
query and fragment). -/
def urlunsplitM (scheme netloc url : List Char) : List Char :=
  let url1 :=
    if !netloc.isEmpty ||
       (!scheme.isEmpty && uses_netloc.contains scheme && url.take 2 ≠ ['/', '/']) then
      let u2 := if !url.isEmpty && url.headD ' ' ≠ '/' then '/' :: url else url
      '/' :: '/' :: (netloc ++ u2)
    else url
  if !scheme.isEmpty then scheme ++ ':' :: url1 else url1

end Urllib

namespace Pipeline

open Py Urllib

/-- The tracking-parameter deny list of `canonicalize_url`. -/
def denyKeys : List (List Char) :=
  ["utm_source", "utm_medium", "utm_campaign", "utm_term", "utm_content",
   "gclid", "fbclid"].map String.data

/-- Trailing-slash strip: Python `path.rstrip("/")`. -/
def rstripSlash (l : List Char) : List Char :=
  (l.reverse.dropWhile fun c => c = '/').reverse

/-- The canonical path piece of `canonicalize_url`:
`(u.path or "/").rstrip("/") or "/"`. -/
def canonicalPath (path0 : List Char) : List Char :=
  let p1 := if path0.isEmpty then ['/'] else path0
  let p2 := rstripSlash p1
  if p2.isEmpty then ['/'] else p2

/-- The filtered, re-encoded query of `canonicalize_url`. -/
def canonicalQuery (query0 : List Char) : List Char :=
  urlencodeM ((parse_qsl query0).filter fun kv => !denyKeys.contains (kv.1.map asciiLower))

/-- The function `canonicalize_url` of `pp.py` (identical in
`old_files/utils.py`): force the scheme to `https` (both branches of the
source conditional produce `"https"`), lower-case the netloc, normalize the
path's trailing slashes, drop params and fragment, strip tracking query
parameters and re-encode the rest; on a parse error return the input
unchanged. -/
def canonicalize_url (url : String) : String :=
  match urlparseM (stripChars url.data) with
  | .error _ => url
  | .ok u =>
    let norm := urlunsplitM "https".data (u.netloc.map asciiLower) (canonicalPath u.path)
    let query := canonicalQuery u.query
    ⟨if query.isEmpty then norm else norm ++ '?' :: query⟩

end Pipeline

namespace Pipeline

open Py Urllib

/-- Appending a trailing slash to a path never changes the canonical path:
`rstrip("/")` removes all trailing slashes. -/
theorem canonicalPath_append_slash (p : List Char) :
    canonicalPath (p ++ ['/']) = canonicalPath p := by
  have hr : rstripSlash (p ++ ['/']) = rstripSlash p := by
    simp [rstripSlash, List.reverse_append]
  cases hp : p.isEmpty
  · simp only [canonicalPath]
    rw [List.isEmpty_eq_false] at hp
    simp only [List.append_eq_nil, List.isEmpty_iff]
    simp [hp, hr]
  · rw [List.isEmpty_iff] at hp
    subst hp
    simp [canonicalPath, rstripSlash]

/-- The canonical path is never empty and never ends in a slash unless it is
the root path. -/
theorem canonicalPath_no_trailing (p : List Char) :
    canonicalPath p ≠ [] ∧
      (canonicalPath p = ['/'] ∨ (canonicalPath p).getLast? ≠ some '/') := by
  simp only [canonicalPath]
  set p1 := if p.isEmpty then ['/'] else p with hp1
  cases h2 : (rstripSlash p1).isEmpty
  · rw [List.isEmpty_eq_false] at h2
    refine ⟨by simp [h2], Or.inr ?_⟩
    intro hlast
    obtain ⟨l0, hl0⟩ := List.getLast?_eq_some_iff.mp (by simpa [h2] using hlast)
    have : (rstripSlash p1).reverse.head? = some '/' := by
      rw [hl0]
      simp
    have hdw : (rstripSlash p1).reverse = p1.reverse.dropWhile (fun c => c = '/') := by
      simp [rstripSlash]
    rw [hdw] at this
    have := List.head?_dropWhile_not (fun c => c = '/') p1.reverse
    simp_all
  · rw [List.isEmpty_iff] at h2
    simp [h2]

end Pipeline

namespace Pipeline

open Py Urllib

/-- The rebuilt URL of the success path always starts with the character h. -/
theorem urlunsplit_https_cons (n p : List Char) :
    ∃ t, urlunsplitM "https".data n p = 'h' :: t := by
  unfold urlunsplitM
  simp only [String.data]
  exact ⟨_, rfl⟩

/-- `canonicalize_url` never returns the empty string: the success path
starts with `https:`, and the error path echoes an input that must contain a
bracket character. -/
theorem canonicalize_ne_empty (u : String) : canonicalize_url u ≠ "" := by
  cases h : urlparseM (stripChars u.data) with
  | error e =>
    have hval : canonicalize_url u = u := by
      unfold canonicalize_url
      rw [h]
    rw [hval]
    intro heq
    rw [heq] at h
    rw [show urlparseM (stripChars "".data) = .ok ⟨[], [], [], []⟩ from rfl] at h
    cases h
  | ok parts =>
    have hval : canonicalize_url u =
        ⟨if (canonicalQuery parts.query).isEmpty then
            urlunsplitM "https".data (parts.netloc.map asciiLower) (canonicalPath parts.path)
          else
            urlunsplitM "https".data (parts.netloc.map asciiLower) (canonicalPath parts.path) ++
              '?' :: canonicalQuery parts.query⟩ := by
      unfold canonicalize_url
      rw [h]
    rw [hval]
    obtain ⟨t, ht⟩ := urlunsplit_https_cons (parts.netloc.map asciiLower) (canonicalPath parts.path)
    intro heq
    have hd := congrArg String.data heq
    simp only [ht] at hd
    cases hq : (canonicalQuery parts.query).isEmpty <;> simp [hq] at hd

end Pipeline

namespace PP

open Py Pipeline

/-! Embedding of the GDELT rolling-window loop of `pp.py`
(`gdelt_artlist_rolling`, the `while True` body).  The HTTP API is an oracle
`api : Int → Option (List Article)` from the current end-of-window cursor
(an instant in seconds) to the decoded `articles` array, `none` modelling a
non-OK status or a raised exception (both break the loop).  The
`progress_cb` observer does not influence control flow and is omitted.
`include_json_fields` is `False` (no `gdelt_raw` column). -/

/-- A decoded GDELT article object. -/
structure Article where
  title : Option String
  url : Option String
  seendate : Option String
  published : Option String
  pubdate : Option String
  domain : Option String
deriving DecidableEq, Repr

/-- `parse_any_datetime(a.get(key))` for an optional string field, through the
external dateutil parser `pad`. -/
def parseField (pad : String → Option Dt) : Option String → Option Dt
  | some s => pad s
  | none => none

/-- The publication instant of an article:
`parse_any_datetime(seendate) or parse_any_datetime(published) or
parse_any_datetime(pubdate)` (a datetime is always truthy). -/
def artPub (pad : String → Option Dt) (a : Article) : Option Dt :=
  (parseField pad a.seendate) <|> (parseField pad a.published) <|> (parseField pad a.pubdate)

/-- The per-article row construction of the batch loop: canonicalize the url
(default `""`), skip the article iff the canonical url is falsy, strip the
title, and normalize a naive publication datetime to aware UTC. -/
def gdeltToRow (pad : String → Option Dt) (a : Article) : Option Row :=
  let url := canonicalize_url ((a.url).getD "")
  if url.data.isEmpty then none
  else
    some
      { title := pyStrip ((a.title).getD "")
        url := url
        source := (a.domain).getD ""
        published_utc :=
          match artPub pad a with
          | some d => some (.pdt true d.secs)
          | none => none }

/-- The comprehension
`[parse_any_datetime(a.get("seendate")) for a in arts if a.get("seendate")]`. -/
def seendateVals (pad : String → Option Dt) (arts : List Article) : List (Option Dt) :=
  (arts.filter fun a => Scraper.truthyS a.seendate).map fun a => pad ((a.seendate).getD "")

/-- Python `min` over a list of optional datetimes (after the `or [None]`
default): a singleton needs no comparison; two or more elements raise
`TypeError` (modelled as `.error`) when any is `None` or when naive and aware
datetimes are mixed, and otherwise compare by instant. -/
def pyMinDts : List (Option Dt) → Except Unit (Option Dt)
  | [] => .ok none
  | [x] => .ok x
  | x :: xs =>
    if (x :: xs).all (fun o => o.isSome) &&
       ((x :: xs).all (fun o => (o.getD ⟨true, 0⟩).aware) ||
        (x :: xs).all fun o => !(o.getD ⟨true, 0⟩).aware) then
      .ok (some ⟨(x.getD ⟨true, 0⟩).aware,
        ((x :: xs).map fun o => (o.getD ⟨true, 0⟩).secs).foldl min (x.getD ⟨true, 0⟩).secs⟩)
    else .error ()

/-- Result of the rolling loop: normal completion with the accumulated rows,
an uncaught `TypeError` from the `min` call, or fuel exhaustion (the Python
loop has no fuel; the termination theorem shows enough fuel always exists). -/
inductive GdeltRes
  | done (rows : List Row)
  | crashed
  | outOfFuel
deriving DecidableEq, Repr

/-- The `while True` body of `gdelt_artlist_rolling` (lines 262–327 of
`pp.py`): fetch at the cursor; stop on error or an empty batch; append the
batch rows; stop on a short batch; find the oldest seendate (stop if
indeterminable, crash if `min` raises); stop when the oldest instant reaches
the window start; move the cursor to one second before the oldest instant;
stop once more than 10000 rows have accumulated. -/
def gdeltLoop (api : Int → Option (List Article)) (pad : String → Option Dt)
    (startUtc : Int) (maxPerCall : Nat) : Nat → List Row → Int → GdeltRes
  | 0, _, _ => .outOfFuel
  | fuel + 1, results, cursor =>
    match api cursor with
    | none => .done results
    | some arts =>
      if arts.isEmpty then .done results
      else
        let results2 := results ++ arts.filterMap (gdeltToRow pad)
        if arts.length < maxPerCall then .done results2
        else
          match pyMinDts (seendateVals pad arts) with
          | .error _ => .crashed
          | .ok none => .done results2
          | .ok (some d) =>
            if d.secs ≤ startUtc then .done results2
            else if results2.length > 10000 then .done results2
            else gdeltLoop api pad startUtc maxPerCall fuel results2 (d.secs - 1)

end PP

namespace Pipeline

/-- A non-empty string has non-empty character data. -/
theorem str_ne_empty_data {s : String} (h : s ≠ "") : s.data.isEmpty = false := by
  cases s with
  | mk d =>
    cases d with
    | nil => exact absurd rfl h
    | cons c t => rfl

end Pipeline

namespace PP

open Py Pipeline

/-- The batch loop never skips an article: its canonicalized url is never
empty. -/
theorem gdeltToRow_isSome (pad : String → Option Dt) (a : Article) :
    (gdeltToRow pad a).isSome = true := by
  have h := str_ne_empty_data (canonicalize_ne_empty ((a.url).getD ""))
  simp [gdeltToRow, h]

/-- `filterMap` by an everywhere-defined function preserves length. -/
theorem length_filterMap_of_isSome {α β : Type} {f : α → Option β} :
    ∀ l : List α, (∀ a ∈ l, (f a).isSome = true) → (l.filterMap f).length = l.length := by
  intro l h
  induction l with
  | nil => rfl
  | cons a t ih =>
    obtain ⟨b, hb⟩ := Option.isSome_iff_exists.mp (h a (List.mem_cons_self a t))
    rw [List.filterMap_cons, hb]
    simp only [List.length_cons]
    rw [ih fun x hx => h x (List.mem_cons_of_mem a hx)]

/-- A minimum fold is bounded by its initial value. -/
theorem foldl_min_le_init : ∀ (l : List Int) (i : Int), l.foldl min i ≤ i := by
  intro l
  induction l with
  | nil => intro i; exact le_refl i
  | cons x xs ih =>
    intro i
    calc (x :: xs).foldl min i = xs.foldl min (min i x) := rfl
    _ ≤ min i x := ih (min i x)
    _ ≤ i := min_le_left i x

/-- The Python `min` over aware datetimes bounded by `c` is bounded by `c`. -/
theorem pyMinDts_le (vals : List (Option Dt)) (c : Int)
    (hall : ∀ v ∈ vals, ∃ t, v = some ⟨true, t⟩ ∧ t ≤ c)
    (m : Dt) (hm : pyMinDts vals = .ok (some m)) : m.secs ≤ c := by
  match vals, hm with
  | [x], hm =>
    obtain ⟨t, hx, htc⟩ := hall x (List.mem_cons_self x [])
    rw [show pyMinDts [x] = .ok x from rfl] at hm
    rw [hx] at hm
    cases hm
    exact htc
  | x :: y :: rest, hm =>
    dsimp only [pyMinDts] at hm
    by_cases hcond : ((x :: y :: rest).all (fun o => o.isSome) &&
       ((x :: y :: rest).all (fun o => (o.getD ⟨true, 0⟩).aware) ||
        (x :: y :: rest).all fun o => !(o.getD ⟨true, 0⟩).aware)) = true
    · rw [if_pos hcond] at hm
      simp only [Except.ok.injEq, Option.some.injEq] at hm
      obtain ⟨t, hx, htc⟩ := hall x (List.mem_cons_self x (y :: rest))
      subst hm
      calc (((x :: y :: rest).map fun o => (o.getD ⟨true, 0⟩).secs).foldl min
              (x.getD ⟨true, 0⟩).secs) ≤ (x.getD ⟨true, 0⟩).secs :=
            foldl_min_le_init _ _
        _ ≤ c := by rw [hx]; exact htc
    · rw [if_neg hcond] at hm
      cases hm

/-- With fuel exceeding `10000 / max_per_call + 2`, the rolling loop never
exhausts its fuel: every iteration either stops or adds at least
`max_per_call ≥ 1` rows towards the 10000 ceiling. -/
theorem gdeltLoop_terminates (api : Int → Option (List Article)) (pad : String → Option Dt)
    (startUtc : Int) (mpc : Nat) :
    ∀ (fuel : Nat) (results : List Row) (cursor : Int),
      results.length ≤ 10000 → 10000 < results.length + fuel * mpc →
      gdeltLoop api pad startUtc mpc fuel results cursor ≠ .outOfFuel := by
  intro fuel
  induction fuel with
  | zero =>
    intro results cursor h1 h2
    omega
  | succ fuel ih =>
    intro results cursor h1 h2
    show gdeltLoop api pad startUtc mpc (fuel + 1) results cursor ≠ .outOfFuel
    unfold gdeltLoop
    cases hapi : api cursor with
    | none => nofun
    | some arts =>
      dsimp only
      by_cases hne : arts.isEmpty = true
      · rw [if_pos hne]; nofun
      · rw [if_neg hne]
        by_cases hshort : arts.length < mpc
        · rw [if_pos hshort]; nofun
        · rw [if_neg hshort]
          cases hmin : pyMinDts (seendateVals pad arts) with
          | error e => nofun
          | ok o =>
            cases o with
            | none => nofun
            | some d =>
              dsimp only
              by_cases hstart : d.secs ≤ startUtc
              · rw [if_pos hstart]; nofun
              · rw [if_neg hstart]
                have hbatch : (arts.filterMap (gdeltToRow pad)).length = arts.length :=
                  length_filterMap_of_isSome arts fun a _ => gdeltToRow_isSome pad a
                by_cases hbig :
                    (results ++ arts.filterMap (gdeltToRow pad)).length > 10000
                · rw [if_pos hbig]; nofun
                · rw [if_neg hbig]
                  apply ih
                  · simpa using hbig
                  · rw [List.length_append, hbatch]
                    have : mpc ≤ arts.length := Nat.le_of_not_lt hshort
                    have hsm : (fuel + 1) * mpc = fuel * mpc + mpc := by ring
                    omega

end PP

namespace PP

/-- A concrete GDELT article fixture. -/
def art0 : Article := ⟨none, some "https://e.com/a", some "d", none, none, none⟩

/-- A parser oracle resolving the fixture's seendate to the aware instant 5. -/
def padD : String → Option Pipeline.Dt :=
  fun s => if s = "d" then some ⟨true, 5⟩ else none

end PP

/-- C3.  The rolling GDELT pagination terminates: for every API oracle that
returns, at each cursor, exactly `max_per_call ≥ 1` articles whose seendates
all parse, with strictly decreasing parsed timestamps, the loop completes
within fuel 10002 (it never runs forever); whenever a batch's parsed
seendates are all at or before the current cursor, the next cursor — the
batch's oldest timestamp minus one second — is strictly smaller; and an
iteration whose oldest timestamp is at or before the window start, or whose
accumulated row count exceeds 10000, returns immediately with the
accumulated rows. -/
theorem c3_gdelt_rolling_termination :
    (∀ (api : Int → Option (List PP.Article)) (pad : String → Option Pipeline.Dt)
        (startUtc c0 : Int) (maxPerCall : Nat), 1 ≤ maxPerCall →
        (∀ c : Int, ∃ arts, api c = some arts ∧ arts.length = maxPerCall ∧
          (∀ a ∈ arts, ∃ s t, a.seendate = some s ∧ s ≠ "" ∧ pad s = some ⟨true, t⟩) ∧
          ((arts.map fun a => (pad ((a.seendate).getD "")).map Pipeline.Dt.secs).Chain'
            fun x y => ∃ tx ty, x = some tx ∧ y = some ty ∧ ty < tx)) →
        PP.gdeltLoop api pad startUtc maxPerCall 10002 [] c0 ≠ .outOfFuel) ∧
    (∀ (pad : String → Option Pipeline.Dt) (c : Int) (arts : List PP.Article)
        (m : Pipeline.Dt),
        (∀ a ∈ arts, ∃ s t, a.seendate = some s ∧ s ≠ "" ∧
          pad s = some ⟨true, t⟩ ∧ t ≤ c) →
        PP.pyMinDts (PP.seendateVals pad arts) = .ok (some m) →
        m.secs - 1 < c) ∧
    (∀ (api : Int → Option (List PP.Article)) (pad : String → Option Pipeline.Dt)
        (startUtc : Int) (mpc fuel : Nat) (results : List Pipeline.Row) (cursor : Int)
        (arts : List PP.Article) (d : Pipeline.Dt),
        api cursor = some arts → arts.isEmpty = false → ¬ arts.length < mpc →
        PP.pyMinDts (PP.seendateVals pad arts) = .ok (some d) →
        (d.secs ≤ startUtc ∨ (results ++ arts.filterMap (PP.gdeltToRow pad)).length > 10000) →
        PP.gdeltLoop api pad startUtc mpc (fuel + 1) results cursor =
          .done (results ++ arts.filterMap (PP.gdeltToRow pad))) := by
  refine ⟨?_, ?_, ?_⟩
  · intro api pad startUtc c0 maxPerCall hmpc _
    apply PP.gdeltLoop_terminates
    · simp
    · omega
  · intro pad c arts m hall hmin
    have hle : m.secs ≤ c := by
      apply PP.pyMinDts_le (PP.seendateVals pad arts) c ?_ m hmin
      intro v hv
      simp only [PP.seendateVals, List.mem_map, List.mem_filter] at hv
      obtain ⟨a, ⟨hmem, htruthy⟩, hva⟩ := hv
      obtain ⟨s, t, hs, hsne, hpad, htc⟩ := hall a hmem
      refine ⟨t, ?_, htc⟩
      rw [← hva, hs]
      simpa [hs] using hpad
    omega
  · intro api pad startUtc mpc fuel results cursor arts d hapi hne hshort hmin hstop
    unfold PP.gdeltLoop
    rw [hapi]
    dsimp only
    rw [if_neg (by simp [hne]), if_neg hshort, hmin]
    dsimp only
    rcases hstop with hstop | hstop
    · rw [if_pos hstop]
    · by_cases hs2 : d.secs ≤ startUtc
      · rw [if_pos hs2]
      · rw [if_neg hs2, if_pos hstop]

/-- C3, witness: a constant API oracle returning one fixed article per call,
with `max_per_call = 1`, satisfies the hypotheses; the loop finishes, the
cursor step 5−1 is below the cursor 7, and an iteration at window start 100
stops with its batch. -/
theorem c3_gdelt_rolling_termination_witness :
    PP.gdeltLoop (fun _ => some [PP.art0]) PP.padD 100 1 10002 [] 9 ≠ .outOfFuel ∧
    (⟨true, 5⟩ : Pipeline.Dt).secs - 1 < 7 ∧
    PP.gdeltLoop (fun _ => some [PP.art0]) PP.padD 100 1 (0 + 1) [] 9 =
      .done ([] ++ [PP.art0].filterMap (PP.gdeltToRow PP.padD)) :=
  ⟨c3_gdelt_rolling_termination.1 (fun _ => some [PP.art0]) PP.padD 100 9 1 (by decide)
      (fun c => ⟨[PP.art0], rfl, rfl,
        fun a ha => by
          rw [List.mem_singleton] at ha
          subst ha
          exact ⟨"d", 5, rfl, by decide, rfl⟩,
        by simp⟩),
   c3_gdelt_rolling_termination.2.1 PP.padD 7 [PP.art0] ⟨true, 5⟩
     (fun a ha => by
        rw [List.mem_singleton] at ha
        subst ha
        exact ⟨"d", 5, rfl, by decide, rfl, by decide⟩)
     rfl,
   c3_gdelt_rolling_termination.2.2 (fun _ => some [PP.art0]) PP.padD 100 1 0 [] 9
     [PP.art0] ⟨true, 5⟩ rfl rfl (by decide) rfl (Or.inl (by decide))⟩

/-- C8, counterexample.  The claim says exactly one trailing slash is removed
from a non-root path ending in a slash; on `"https://a.com/x//"` the code
removes both slashes, yielding `"https://a.com/x"`, not `"https://a.com/x/"`. -/
theorem c8_counterexample :
    Pipeline.canonicalize_url "https://a.com/x//" = "https://a.com/x" ∧
    Pipeline.canonicalize_url "https://a.com/x//" ≠ "https://a.com/x/" := by
  constructor
  · decide
  · decide

/-- C8, amended.  `canonicalize_url` collapses a missing path to `/` and
strips all trailing slashes from the path (`path.rstrip("/") or "/"`):
appending a trailing slash never changes the canonical path, the canonical
path of an empty path is `/`, and a canonical path never ends in a slash
unless it is exactly the root `/`. -/
theorem c8_amended :
    (∀ p : List Char, Pipeline.canonicalPath (p ++ ['/']) = Pipeline.canonicalPath p) ∧
    Pipeline.canonicalPath [] = ['/'] ∧
    (∀ p : List Char, Pipeline.canonicalPath p ≠ [] ∧
      (Pipeline.canonicalPath p = ['/'] ∨ (Pipeline.canonicalPath p).getLast? ≠ some '/')) ∧
    Pipeline.canonicalize_url "https://a.com" = "https://a.com/" ∧
    Pipeline.canonicalize_url "https://a.com/x//" = "https://a.com/x" :=
  ⟨Pipeline.canonicalPath_append_slash, rfl, Pipeline.canonicalPath_no_trailing,
   by decide, by decide⟩

/-- C9.  `canonicalize_url` never returns an empty string (the empty input
maps to `"https:///"`), so the branch of the GDELT batch loop that skips an
article because its canonical url is falsy is unreachable for string url
fields, including the missing-url default `""`. -/
theorem c9_canonicalize_never_empty :
    (∀ u : String, Pipeline.canonicalize_url u ≠ "") ∧
    Pipeline.canonicalize_url "" = "https:///" ∧
    (∀ (pad : String → Option Pipeline.Dt) (a : PP.Article),
        PP.gdeltToRow pad a ≠ none) :=
  ⟨Pipeline.canonicalize_ne_empty, by decide,
   fun pad a => by
     have hs := PP.gdeltToRow_isSome pad a
     intro h
     rw [h] at hs
     simp at hs⟩

namespace Urllib

open Py

theorem charLeIff (a b : Char) : (a ≤ b) ↔ a.toNat ≤ b.toNat := Iff.rfl

theorem charValidToNat (c : Char) : c.toNat.isValidChar := c.valid

theorem charEqOfToNat {a b : Char} (h : a.toNat = b.toNat) : a = b := by
  apply Char.ext
  exact UInt32.toNat.inj h

theorem toNatOfNatValid {n : Nat} (h : n.isValidChar) : (Char.ofNat n).toNat = n := by
  unfold Char.ofNat
  rw [dif_pos h]
  rfl

theorem takeWhile_all {α : Type} {p : α → Bool} :
    ∀ l : List α, (∀ c ∈ l, p c = true) → l.takeWhile p = l := by
  intro l h
  induction l with
  | nil => rfl
  | cons a t ih =>
    rw [List.takeWhile_cons, if_pos (h a (List.mem_cons_self a t))]
    rw [ih fun c hc => h c (List.mem_cons_of_mem a hc)]

theorem dropWhile_all {α : Type} {p : α → Bool} :
    ∀ l : List α, (∀ c ∈ l, p c = true) → l.dropWhile p = [] := by
  intro l h
  induction l with
  | nil => rfl
  | cons a t ih =>
    rw [List.dropWhile_cons, if_pos (h a (List.mem_cons_self a t))]
    exact ih fun c hc => h c (List.mem_cons_of_mem a hc)

theorem takeWhile_append_all {α : Type} {p : α → Bool} :
    ∀ (a b : List α), (∀ c ∈ a, p c = true) →
      (a ++ b).takeWhile p = a ++ b.takeWhile p := by
  intro a
  induction a with
  | nil => intro b _; rfl
  | cons x t ih =>
    intro b h
    rw [List.cons_append, List.takeWhile_cons, if_pos (h x (List.mem_cons_self x t))]
    rw [ih b fun c hc => h c (List.mem_cons_of_mem x hc)]
    rfl

theorem dropWhile_append_all {α : Type} {p : α → Bool} :
    ∀ (a b : List α), (∀ c ∈ a, p c = true) →
      (a ++ b).dropWhile p = b.dropWhile p := by
  intro a
  induction a with
  | nil => intro b _; rfl
  | cons x t ih =>
    intro b h
    rw [List.cons_append, List.dropWhile_cons, if_pos (h x (List.mem_cons_self x t))]
    exact ih b fun c hc => h c (List.mem_cons_of_mem x hc)

theorem asciiLower_toNat (c : Char) :
    (asciiLower c).toNat = if 'A' ≤ c && c ≤ 'Z' then c.toNat + 32 else c.toNat := by
  unfold asciiLower
  by_cases h : ('A' ≤ c && c ≤ 'Z') = true
  · rw [if_pos h, if_pos h]
    have h2 := h
    rw [Bool.and_eq_true, decide_eq_true_eq, decide_eq_true_eq, charLeIff, charLeIff,
      show ('A').toNat = 65 from rfl, show ('Z').toNat = 90 from rfl] at h2
    apply toNatOfNatValid
    left
    show c.toNat + 32 < 55296
    omega
  · rw [if_neg h, if_neg h]

theorem asciiLower_cases (c : Char) :
    asciiLower c = c ∨ (97 ≤ (asciiLower c).toNat ∧ (asciiLower c).toNat ≤ 122) := by
  by_cases h : ('A' ≤ c && c ≤ 'Z') = true
  · right
    rw [asciiLower_toNat, if_pos h]
    have h2 := h
    rw [Bool.and_eq_true, decide_eq_true_eq, decide_eq_true_eq, charLeIff, charLeIff,
      show ('A').toNat = 65 from rfl, show ('Z').toNat = 90 from rfl] at h2
    constructor <;> omega
  · left
    unfold asciiLower
    rw [if_neg h]

theorem asciiLower_idem (c : Char) : asciiLower (asciiLower c) = asciiLower c := by
  rcases asciiLower_cases c with h | ⟨h1, h2⟩
  · rw [h]
    exact h
  · have hne : ('A' ≤ asciiLower c && asciiLower c ≤ 'Z') ≠ true := by
      intro hcond
      rw [Bool.and_eq_true, decide_eq_true_eq, decide_eq_true_eq, charLeIff, charLeIff,
        show ('A').toNat = 65 from rfl, show ('Z').toNat = 90 from rfl] at hcond
      omega
    apply charEqOfToNat
    rw [asciiLower_toNat, if_neg hne]

theorem asciiLower_fix {c : Char} (h : ¬ (97 ≤ c.toNat ∧ c.toNat ≤ 122)) :
    ∀ d : Char, asciiLower d = c → d = c := by
  intro d hd
  rcases asciiLower_cases d with h2 | ⟨h1, h2⟩
  · rw [← h2, hd]
  · rw [hd] at h1 h2
    exact absurd ⟨h1, h2⟩ h

theorem splitColon_append (a b : List Char) (ha : ':' ∉ a) :
    splitColon (a ++ ':' :: b) = some (a, b) := by
  induction a with
  | nil => rfl
  | cons c t ih =>
    rw [List.cons_append]
    unfold splitColon
    rw [if_neg (fun hc => ha (by rw [← hc]; exact List.mem_cons_self c t))]
    rw [ih fun ht => ha (List.mem_cons_of_mem c ht)]
    rfl

end Urllib

namespace Urllib

set_option maxRecDepth 8192 in
theorem dec_enc_nat (n : Nat) (hv : n.isValidChar) (f : Nat) (bs : List Nat) :
    utf8DecGo (f + 1) (Pipeline.utf8Char n ++ bs) = Char.ofNat n :: utf8DecGo f bs := by
  have hlt : n < 1114112 := by
    rcases hv with h | ⟨h1, h2⟩
    · omega
    · omega
  unfold Pipeline.utf8Char
  by_cases h1 : n < 0x80
  · rw [if_pos h1]
    show utf8DecGo (f + 1) (n :: bs) = Char.ofNat n :: utf8DecGo f bs
    conv_lhs => unfold utf8DecGo
    rw [if_pos h1]
  · rw [if_neg h1]
    by_cases h2 : n < 0x800
    · rw [if_pos h2]
      show utf8DecGo (f + 1) ((0xc0 + n / 64) :: (0x80 + n % 64) :: bs) =
        Char.ofNat n :: utf8DecGo f bs
      conv_lhs => unfold utf8DecGo
      rw [if_neg (by omega)]
      rw [if_pos (by simp only [Bool.and_eq_true, decide_eq_true_eq]; omega)]
      dsimp only
      rw [if_pos (by simp only [Bool.and_eq_true, decide_eq_true_eq]; omega)]
      congr 1
      congr 1
      omega
    · rw [if_neg h2]
      by_cases h3 : n < 0x10000
      · rw [if_pos h3]
        show utf8DecGo (f + 1)
            ((0xe0 + n / 4096) :: (0x80 + n / 64 % 64) :: (0x80 + n % 64) :: bs) =
          Char.ofNat n :: utf8DecGo f bs
        conv_lhs => unfold utf8DecGo
        rw [if_neg (by omega)]
        rw [if_neg (by simp only [Bool.and_eq_true, decide_eq_true_eq]; omega)]
        rw [if_pos (by simp only [Bool.and_eq_true, decide_eq_true_eq]; omega)]
        dsimp only
        have hsur : ¬ (55296 ≤ n ∧ n ≤ 57343) := by
          rcases hv with h | ⟨ha, hb⟩
          · omega
          · omega
        rw [if_pos ?cond]
        case cond =>
          simp only [Bool.and_eq_true, decide_eq_true_eq]
          refine ⟨⟨?_, by omega⟩, by omega⟩
          by_cases he0 : 0xe0 + n / 4096 = 0xe0
          · rw [if_pos he0]
            simp only [Bool.and_eq_true, decide_eq_true_eq]
            have : n / 4096 = 0 := by omega
            constructor <;> omega
          · rw [if_neg he0]
            by_cases hed : 0xe0 + n / 4096 = 0xed
            · rw [if_pos hed]
              simp only [Bool.and_eq_true, decide_eq_true_eq]
              have h13 : n / 4096 = 13 := by omega
              constructor <;> omega
            · rw [if_neg hed]
              simp only [Bool.and_eq_true, decide_eq_true_eq]
              constructor <;> omega
        congr 1
        congr 1
        omega
      · rw [if_neg h3]
        show utf8DecGo (f + 1)
            ((0xf0 + n / 262144) :: (0x80 + n / 4096 % 64) :: (0x80 + n / 64 % 64) ::
              (0x80 + n % 64) :: bs) = Char.ofNat n :: utf8DecGo f bs
        unfold utf8DecGo
        rw [if_neg (by omega)]
        rw [if_neg (by simp only [Bool.and_eq_true, decide_eq_true_eq]; omega)]
        rw [if_neg (by simp only [Bool.and_eq_true, decide_eq_true_eq]; omega)]
        rw [if_pos (by simp only [Bool.and_eq_true, decide_eq_true_eq]; omega)]
        dsimp only
        rw [if_pos ?cond4]
        case cond4 =>
          simp only [Bool.and_eq_true, decide_eq_true_eq]
          refine ⟨⟨⟨⟨?_, by omega⟩, by omega⟩, by omega⟩, by omega⟩
          by_cases hf0 : 0xf0 + n / 262144 = 0xf0
          · rw [if_pos hf0]
            simp only [Bool.and_eq_true, decide_eq_true_eq]
            have : n / 262144 = 0 := by omega
            constructor <;> omega
          · rw [if_neg hf0]
            by_cases hf4 : 0xf0 + n / 262144 = 0xf4
            · rw [if_pos hf4]
              simp only [Bool.and_eq_true, decide_eq_true_eq]
              have : n / 262144 = 4 := by omega
              constructor <;> omega
            · rw [if_neg hf4]
              simp only [Bool.and_eq_true, decide_eq_true_eq]
              constructor <;> omega
        congr 1
        · congr 1
          omega
        · exact utf8DecGo.eq_def f bs

end Urllib

namespace Urllib

open Py

theorem charEqIffToNat (a b : Char) : a = b ↔ a.toNat = b.toNat :=
  ⟨fun h => h ▸ rfl, charEqOfToNat⟩

theorem pyIsSpace_toNat {c : Char} (h : pyIsSpace c = true) :
    c.toNat ≤ 32 ∨ c.toNat = 133 ∨ c.toNat = 160 ∨ 5760 ≤ c.toNat := by
  unfold pyIsSpace at h
  simp only [Bool.or_eq_true, Bool.and_eq_true, decide_eq_true_eq, charEqIffToNat,
    show (' ').toNat = 32 from rfl, show ('\t').toNat = 9 from rfl,
    show ('\n').toNat = 10 from rfl] at h
  omega

theorem pyIsSpace_false_mid {c : Char} (h1 : 33 ≤ c.toNat) (h2 : c.toNat ≤ 126) :
    pyIsSpace c = false := by
  cases hb : pyIsSpace c
  · rfl
  · have := pyIsSpace_toNat hb
    omega

theorem unsafe_isSpace {c : Char} (h : isUnsafeUrlChar c = true) : pyIsSpace c = true := by
  unfold isUnsafeUrlChar at h
  simp only [Bool.or_eq_true, decide_eq_true_eq] at h
  rcases h with (h | h) | h <;> subst h <;> decide

theorem dropWhile_none {α : Type} {p : α → Bool} :
    ∀ l : List α, (∀ c ∈ l, p c = false) → l.dropWhile p = l := by
  intro l h
  induction l with
  | nil => rfl
  | cons a t ih =>
    rw [List.dropWhile_cons, if_neg (by simp [h a (List.mem_cons_self a t)])]

theorem stripChars_id {l : List Char} (h : ∀ c ∈ l, pyIsSpace c = false) :
    stripChars l = l := by
  unfold stripChars
  rw [dropWhile_none l h,
    dropWhile_none l.reverse (fun c hc => h c (List.mem_reverse.mp hc)),
    List.reverse_reverse]

theorem filter_unsafe_id {l : List Char} (h : ∀ c ∈ l, pyIsSpace c = false) :
    (l.filter fun c => !isUnsafeUrlChar c) = l := by
  apply List.filter_eq_self.mpr
  intro c hc
  cases hu : isUnsafeUrlChar c
  · simp
  · have hs := unsafe_isSpace hu
    rw [h c hc] at hs
    cases hs

theorem splitOnChar_ne_nil (sep : Char) : ∀ l, splitOnChar sep l ≠ [] := by
  intro l
  induction l with
  | nil => simp [splitOnChar]
  | cons c t ih =>
    unfold splitOnChar
    cases h : splitOnChar sep t with
    | nil => simp
    | cons a r =>
      dsimp only
      split <;> simp

theorem splitOnChar_no_sep {sep : Char} : ∀ l, sep ∉ l → splitOnChar sep l = [l] := by
  intro l h
  induction l with
  | nil => rfl
  | cons c t ih =>
    unfold splitOnChar
    rw [ih (fun ht => h (List.mem_cons_of_mem c ht))]
    dsimp only
    rw [if_neg (fun hc => h (by rw [hc]; exact List.mem_cons_self sep t))]

theorem splitOnChar_append {sep : Char} : ∀ a b, sep ∉ a →
    splitOnChar sep (a ++ sep :: b) = a :: splitOnChar sep b := by
  intro a
  induction a with
  | nil =>
    intro b _
    show splitOnChar sep (sep :: b) = [] :: splitOnChar sep b
    conv_lhs => unfold splitOnChar
    cases h : splitOnChar sep b with
    | nil => exact absurd h (splitOnChar_ne_nil sep b)
    | cons x r => dsimp only; rw [if_pos rfl]
  | cons c t ih =>
    intro b h
    rw [List.cons_append]
    conv_lhs => unfold splitOnChar
    rw [ih b (fun ht => h (List.mem_cons_of_mem c ht))]
    dsimp only
    rw [if_neg (fun hc => h (by rw [hc]; exact List.mem_cons_self sep t))]

end Urllib

namespace Urllib

open Py

/-- Character class of `quote_plus` output on escaped/safe characters. -/
def quoteOK (n : Nat) : Prop :=
  n = 37 ∨ n = 43 ∨ (45 ≤ n ∧ n ≤ 46) ∨ (48 ≤ n ∧ n ≤ 57) ∨
  (65 ≤ n ∧ n ≤ 90) ∨ n = 95 ∨ (97 ≤ n ∧ n ≤ 122) ∨ n = 126

/-- Character class of `urlencode` output (adds `&` and `=`). -/
def qOK (n : Nat) : Prop := quoteOK n ∨ n = 38 ∨ n = 61

theorem quoteOK_range {n : Nat} (h : quoteOK n) : 33 ≤ n ∧ n ≤ 126 := by
  unfold quoteOK at h
  omega

theorem qOK_range {n : Nat} (h : qOK n) : 33 ≤ n ∧ n ≤ 126 := by
  unfold qOK quoteOK at h
  omega

theorem char_toNat_lt (c : Char) : c.toNat < 1114112 := by
  rcases charValidToNat c with h | ⟨_, h⟩
  · omega
  · omega

theorem safe_toNat {c : Char} (h : isSafeChar c = true) :
    (65 ≤ c.toNat ∧ c.toNat ≤ 90) ∨ (97 ≤ c.toNat ∧ c.toNat ≤ 122) ∨
    (48 ≤ c.toNat ∧ c.toNat ≤ 57) ∨ c.toNat = 95 ∨ c.toNat = 46 ∨
    c.toNat = 45 ∨ c.toNat = 126 := by
  unfold isSafeChar isDig at h
  simp only [Bool.or_eq_true, Bool.and_eq_true, decide_eq_true_eq, charLeIff,
    charEqIffToNat, show ('A').toNat = 65 from rfl, show ('Z').toNat = 90 from rfl,
    show ('a').toNat = 97 from rfl, show ('z').toNat = 122 from rfl,
    show ('0').toNat = 48 from rfl, show ('9').toNat = 57 from rfl,
    show ('_').toNat = 95 from rfl, show ('.').toNat = 46 from rfl,
    show ('-').toNat = 45 from rfl, show ('~').toNat = 126 from rfl] at h
  omega

theorem safe_of_toNat {c : Char}
    (h : (65 ≤ c.toNat ∧ c.toNat ≤ 90) ∨ (97 ≤ c.toNat ∧ c.toNat ≤ 122) ∨
      (48 ≤ c.toNat ∧ c.toNat ≤ 57) ∨ c.toNat = 95 ∨ c.toNat = 46 ∨
      c.toNat = 45 ∨ c.toNat = 126) : isSafeChar c = true := by
  unfold isSafeChar isDig
  simp only [Bool.or_eq_true, Bool.and_eq_true, decide_eq_true_eq, charLeIff,
    charEqIffToNat, show ('A').toNat = 65 from rfl, show ('Z').toNat = 90 from rfl,
    show ('a').toNat = 97 from rfl, show ('z').toNat = 122 from rfl,
    show ('0').toNat = 48 from rfl, show ('9').toNat = 57 from rfl,
    show ('_').toNat = 95 from rfl, show ('.').toNat = 46 from rfl,
    show ('-').toNat = 45 from rfl, show ('~').toNat = 126 from rfl]
  omega

theorem hexUp_toNat {n : Nat} (h : n < 16) :
    (hexUp n).toNat = if n < 10 then 48 + n else 55 + n := by
  unfold hexUp
  by_cases h10 : n < 10
  · rw [if_pos h10, if_pos h10, toNatOfNatValid (Or.inl (by omega))]
  · rw [if_neg h10, if_neg h10, toNatOfNatValid (Or.inl (by omega))]

theorem utf8Char_lt {n : Nat} (hn : n < 1114112) :
    ∀ b ∈ Pipeline.utf8Char n, b < 256 := by
  intro b hb
  unfold Pipeline.utf8Char at hb
  split at hb
  · simp only [List.mem_singleton] at hb
    omega
  · split at hb
    · simp only [List.mem_cons, List.not_mem_nil, or_false] at hb
      rcases hb with h | h <;> omega
    · split at hb
      · simp only [List.mem_cons, List.not_mem_nil, or_false] at hb
        rcases hb with h | h | h <;> omega
      · simp only [List.mem_cons, List.not_mem_nil, or_false] at hb
        rcases hb with h | h | h | h <;> omega

/-- The percent-escape expansion of a byte list. -/
def escBytes (bs : List Nat) : List Char :=
  bs.flatMap fun b => ['%', hexUp (b / 16), hexUp (b % 16)]

theorem escBytes_toNat {bs : List Nat} (h : ∀ b ∈ bs, b < 256) :
    ∀ d ∈ escBytes bs, d.toNat = 37 ∨ (48 ≤ d.toNat ∧ d.toNat ≤ 57) ∨
      (65 ≤ d.toNat ∧ d.toNat ≤ 70) := by
  intro d hd
  rw [escBytes, List.mem_flatMap] at hd
  obtain ⟨b, hb, hd⟩ := hd
  have hb256 := h b hb
  simp only [List.mem_cons, List.not_mem_nil, or_false] at hd
  rcases hd with h1 | h1 | h1
  · subst h1; left; rfl
  · subst h1
    rw [hexUp_toNat (by omega)]
    split <;> omega
  · subst h1
    rw [hexUp_toNat (by omega)]
    split <;> omega

theorem quoteChar_quoteOK {n : Nat} (c : Char) (hc : n ∈ (quoteChar c).map Char.toNat) :
    quoteOK n := by
  rw [List.mem_map] at hc
  obtain ⟨d, hd, rfl⟩ := hc
  unfold quoteChar at hd
  split at hd
  · rename_i hs
    rw [List.mem_singleton] at hd
    subst hd
    rcases safe_toNat hs with h | h | h | h | h | h | h <;> unfold quoteOK <;> omega
  · split at hd
    · rw [List.mem_singleton] at hd
      subst hd
      unfold quoteOK
      right; left; rfl
    · rename_i hns _
      have := escBytes_toNat (utf8Char_lt (char_toNat_lt c)) d (by rw [escBytes]; exact hd)
      unfold quoteOK
      omega

theorem quotePlus_quoteOK {s : List Char} {d : Char} (hd : d ∈ quotePlus s) :
    quoteOK d.toNat := by
  rw [quotePlus, List.mem_flatMap] at hd
  obtain ⟨c, _, hd⟩ := hd
  exact quoteChar_quoteOK c (List.mem_map_of_mem Char.toNat hd)

theorem urlencode_qOK : ∀ (pairs : List (List Char × List Char)) (d : Char),
    d ∈ urlencodeM pairs → qOK d.toNat := by
  intro pairs
  induction pairs with
  | nil =>
    intro d hd
    simp only [urlencodeM, List.not_mem_nil] at hd
  | cons kv rest ih =>
    intro d hd
    cases rest with
    | nil =>
      rw [show urlencodeM [kv] = quotePlus kv.1 ++ '=' :: quotePlus kv.2 from rfl] at hd
      simp only [List.mem_append, List.mem_cons] at hd
      rcases hd with h | h | h
      · exact Or.inl (quotePlus_quoteOK h)
      · subst h; right; right; rfl
      · exact Or.inl (quotePlus_quoteOK h)
    | cons kv2 r2 =>
      rw [show urlencodeM (kv :: kv2 :: r2) =
        quotePlus kv.1 ++ '=' :: quotePlus kv.2 ++ '&' :: urlencodeM (kv2 :: r2)
        from rfl] at hd
      simp only [List.mem_append, List.mem_cons, or_assoc] at hd
      rcases hd with h | h | h | h | h
      · exact Or.inl (quotePlus_quoteOK h)
      · subst h; right; right; rfl
      · exact Or.inl (quotePlus_quoteOK h)
      · subst h; right; left; rfl
      · exact ih d h

end Urllib

namespace Urllib

open Py

theorem charOfNatToNat (c : Char) : Char.ofNat c.toNat = c :=
  charEqOfToNat (toNatOfNatValid (charValidToNat c))

theorem dec_enc_list : ∀ (cs : List Char) (f : Nat), cs.length ≤ f →
    utf8DecGo f (Pipeline.utf8Bytes cs) = cs := by
  intro cs
  induction cs with
  | nil =>
    intro f _
    cases f <;> rfl
  | cons c t ih =>
    intro f hf
    cases f with
    | zero => simp at hf
    | succ f =>
      have hsplit : Pipeline.utf8Bytes (c :: t) =
          Pipeline.utf8Char c.toNat ++ Pipeline.utf8Bytes t := by
        simp [Pipeline.utf8Bytes]
      rw [hsplit, dec_enc_nat c.toNat (charValidToNat c) f (Pipeline.utf8Bytes t),
        charOfNatToNat, ih f (by simpa using hf)]

theorem hexVal_hexUp {n : Nat} (h : n < 16) : hexVal (hexUp n) = some n := by
  interval_cases n <;> decide

theorem pctByte_esc (b : Nat) (hb : b < 256) (rest : List Char) :
    pctByte ('%' :: hexUp (b / 16) :: hexUp (b % 16) :: rest) = some (b, rest) := by
  unfold pctByte
  dsimp only
  rw [if_pos rfl, hexVal_hexUp (by omega), hexVal_hexUp (by omega)]
  dsimp only
  rw [show 16 * (b / 16) + b % 16 = b from by omega]

theorem pctByte_not_pct {c : Char} (hc : c ≠ '%') : ∀ t, pctByte (c :: t) = none := by
  intro t
  match t with
  | [] => rfl
  | [h1] => rfl
  | h1 :: h2 :: r =>
    unfold pctByte
    dsimp only
    rw [if_neg hc]

theorem escBytes_cons (b : Nat) (bs : List Nat) :
    escBytes (b :: bs) = '%' :: hexUp (b / 16) :: hexUp (b % 16) :: escBytes bs := by
  simp [escBytes]

theorem pctRun_esc : ∀ (bs : List Nat) (rest : List Char) (f : Nat),
    (∀ b ∈ bs, b < 256) → bs.length ≤ f → pctByte rest = none →
    pctRun f (escBytes bs ++ rest) = (bs, rest) := by
  intro bs
  induction bs with
  | nil =>
    intro rest f _ _ hrest
    show pctRun f rest = ([], rest)
    cases f with
    | zero => rfl
    | succ f =>
      unfold pctRun
      rw [hrest]
  | cons b bs ih =>
    intro rest f hlt hf hrest
    cases f with
    | zero => simp at hf
    | succ f =>
      rw [escBytes_cons, List.cons_append, List.cons_append, List.cons_append]
      unfold pctRun
      rw [pctByte_esc b (hlt b (List.mem_cons_self b bs)) (escBytes bs ++ rest)]
      dsimp only
      rw [ih rest f (fun x hx => hlt x (List.mem_cons_of_mem b hx)) (by simpa using hf) hrest]

theorem unquoteGo_nil (f : Nat) : unquoteGo f [] = [] := by
  cases f <;> rfl

theorem unquoteGo_not_pct {c : Char} {t : List Char} (h : pctByte (c :: t) = none) (f : Nat) :
    unquoteGo (f + 1) (c :: t) = c :: unquoteGo f t := by
  conv_lhs => unfold unquoteGo
  rw [h]
  rfl

theorem pctRun_some {l r : List Char} {b : Nat} (h : pctByte l = some (b, r)) (f : Nat) :
    pctRun (f + 1) l = (b :: (pctRun f r).1, (pctRun f r).2) := by
  conv_lhs => unfold pctRun
  rw [h]

/-- Characters that `quote_plus` percent-escapes. -/
def needsEsc (c : Char) : Bool := !(isSafeChar c || c = ' ')

/-- One character of `quote_plus` output after the `+`-to-space mapping of
`unquote_plus`. -/
def qc (c : Char) : List Char :=
  (quoteChar c).map fun x => if x = '+' then ' ' else x

theorem safe_ne_plus {c : Char} (h : isSafeChar c = true) : c ≠ '+' := by
  intro he
  rcases safe_toNat h with h1 | h1 | h1 | h1 | h1 | h1 | h1 <;>
    (rw [he, show ('+').toNat = 43 from rfl] at h1; omega)

theorem qc_simple {c : Char} (h : isSafeChar c = true ∨ c = ' ') : qc c = [c] := by
  unfold qc quoteChar
  rcases h with h | h
  · rw [if_pos h]
    dsimp only [List.map]
    rw [if_neg (safe_ne_plus h)]
  · subst h
    rfl

theorem qc_esc {c : Char} (h : needsEsc c = true) :
    qc c = escBytes (Pipeline.utf8Char c.toNat) := by
  unfold needsEsc at h
  simp only [Bool.not_eq_true', Bool.or_eq_false_iff, decide_eq_false_iff_not] at h
  unfold qc quoteChar
  rw [if_neg (by simp [h.1]), if_neg h.2]
  have hmap : ∀ d ∈ escBytes (Pipeline.utf8Char c.toNat),
      (if d = '+' then ' ' else d) = d := by
    intro d hd
    have := escBytes_toNat (utf8Char_lt (char_toNat_lt c)) d hd
    rw [if_neg]
    intro he
    rw [he, show ('+').toNat = 43 from rfl] at this
    omega
  show (escBytes (Pipeline.utf8Char c.toNat)).map _ = _
  rw [List.map_congr_left hmap]
  simp

theorem not_needsEsc {c : Char} (h : needsEsc c = false) :
    isSafeChar c = true ∨ c = ' ' := by
  unfold needsEsc at h
  simp only [Bool.not_eq_false', Bool.or_eq_true, decide_eq_true_eq] at h
  exact h

theorem qc_head_ne_pct {c : Char} (h : needsEsc c = false) {t : List Char} :
    pctByte (c :: t) = none := by
  apply pctByte_not_pct
  intro he
  rcases not_needsEsc h with h1 | h1
  · rcases safe_toNat h1 with h2 | h2 | h2 | h2 | h2 | h2 | h2 <;>
      (rw [he, show ('%').toNat = 37 from rfl] at h2; omega)
  · rw [h1] at he
    cases he

theorem escBytes_append (a b : List Nat) :
    escBytes (a ++ b) = escBytes a ++ escBytes b := by
  simp [escBytes]

theorem flatMap_qc_esc : ∀ (r : List Char), (∀ x ∈ r, needsEsc x = true) →
    r.flatMap qc = escBytes (Pipeline.utf8Bytes r) := by
  intro r
  induction r with
  | nil => intro _; rfl
  | cons x r' ih =>
    intro h
    rw [List.flatMap_cons, qc_esc (h x (List.mem_cons_self x r')),
      ih (fun y hy => h y (List.mem_cons_of_mem x hy)),
      show Pipeline.utf8Bytes (x :: r') = Pipeline.utf8Char x.toNat ++ Pipeline.utf8Bytes r'
        from by simp [Pipeline.utf8Bytes],
      escBytes_append]

theorem utf8Char_ne_nil (n : Nat) : Pipeline.utf8Char n ≠ [] := by
  unfold Pipeline.utf8Char
  split
  · simp
  · split
    · simp
    · split <;> simp

theorem utf8Bytes_length_ge : ∀ cs : List Char, cs.length ≤ (Pipeline.utf8Bytes cs).length := by
  intro cs
  induction cs with
  | nil => simp [Pipeline.utf8Bytes]
  | cons c t ih =>
    have hsplit : Pipeline.utf8Bytes (c :: t) =
        Pipeline.utf8Char c.toNat ++ Pipeline.utf8Bytes t := by
      simp [Pipeline.utf8Bytes]
    rw [hsplit, List.length_append, List.length_cons]
    have h1 : 1 ≤ (Pipeline.utf8Char c.toNat).length := by
      cases h : Pipeline.utf8Char c.toNat with
      | nil => exact absurd h (utf8Char_ne_nil c.toNat)
      | cons a b => simp
    omega

end Urllib

namespace Urllib

open Py

theorem escBytes_length (bs : List Nat) : (escBytes bs).length = 3 * bs.length := by
  induction bs with
  | nil => rfl
  | cons b t ih =>
    rw [escBytes_cons]
    simp only [List.length_cons]
    rw [ih]
    omega

theorem dec_enc_full (cs : List Char) : utf8DecodeReplace (Pipeline.utf8Bytes cs) = cs :=
  dec_enc_list cs (Pipeline.utf8Bytes cs).length (utf8Bytes_length_ge cs)

theorem dropWhile_head_false {α : Type} {p : α → Bool} :
    ∀ {l : List α} {r0 : α} {r' : List α}, l.dropWhile p = r0 :: r' → p r0 = false := by
  intro l
  induction l with
  | nil =>
    intro r0 r' h
    cases h
  | cons a t ih =>
    intro r0 r' h
    rw [List.dropWhile_cons] at h
    by_cases hp : p a = true
    · rw [if_pos hp] at h
      exact ih h
    · rw [if_neg hp] at h
      cases h
      simpa using hp

theorem unquoteGo_esc (bs : List Nat) (rest : List Char) (f : Nat)
    (hne : bs ≠ []) (hlt : ∀ b ∈ bs, b < 256) (hrest : pctByte rest = none) :
    unquoteGo (f + 1) (escBytes bs ++ rest) =
      utf8DecodeReplace bs ++ unquoteGo f rest := by
  cases bs with
  | nil => exact absurd rfl hne
  | cons b0 bs1 =>
    rw [escBytes_cons, List.cons_append, List.cons_append, List.cons_append]
    have hpct : pctByte ('%' :: hexUp (b0 / 16) :: hexUp (b0 % 16) ::
        (escBytes bs1 ++ rest)) = some (b0, escBytes bs1 ++ rest) :=
      pctByte_esc b0 (hlt b0 (List.mem_cons_self b0 bs1)) (escBytes bs1 ++ rest)
    conv_lhs => unfold unquoteGo
    rw [if_pos (show (pctByte ('%' :: hexUp (b0 / 16) :: hexUp (b0 % 16) ::
        (escBytes bs1 ++ rest))).isSome = true from by rw [hpct]; rfl)]
    have hrun : pctRun ((hexUp (b0 / 16) :: hexUp (b0 % 16) ::
          (escBytes bs1 ++ rest)).length + 1)
        ('%' :: hexUp (b0 / 16) :: hexUp (b0 % 16) :: (escBytes bs1 ++ rest)) =
        (b0 :: bs1, rest) := by
      rw [← List.cons_append, ← List.cons_append, ← List.cons_append, ← escBytes_cons]
      apply pctRun_esc (b0 :: bs1) rest _ hlt ?_ hrest
      simp only [List.length_cons, List.length_append]
      rw [escBytes_length]
      omega
    dsimp only
    rw [hrun]

theorem unq_qc : ∀ (n : Nat) (s : List Char) (f : Nat), s.length ≤ n →
    (s.flatMap qc).length ≤ f → unquoteGo f (s.flatMap qc) = s := by
  intro n
  induction n with
  | zero =>
    intro s f hs _
    have h0 : s = [] := List.length_eq_zero.mp (Nat.le_zero.mp hs)
    subst h0
    rw [List.flatMap_nil]
    exact unquoteGo_nil f
  | succ n ih =>
    intro s f hs hf
    cases s with
    | nil =>
      rw [List.flatMap_nil]
      exact unquoteGo_nil f
    | cons c t =>
      cases hne : needsEsc c with
      | false =>
        rw [List.flatMap_cons, qc_simple (not_needsEsc hne), List.singleton_append] at hf ⊢
        cases f with
        | zero => simp at hf
        | succ f =>
          rw [unquoteGo_not_pct (qc_head_ne_pct hne) f]
          congr 1
          exact ih t f (by simpa using hs) (by simpa using hf)
      | true =>
        have hsplit : c :: t = (c :: t).takeWhile needsEsc ++ (c :: t).dropWhile needsEsc :=
          (List.takeWhile_append_dropWhile needsEsc (c :: t)).symm
        set run := (c :: t).takeWhile needsEsc with hrundef
        set rest := (c :: t).dropWhile needsEsc with hrestdef
        have hrunc : run = c :: t.takeWhile needsEsc := by
          rw [hrundef, List.takeWhile_cons, if_pos hne]
        have hrunall : ∀ x ∈ run, needsEsc x = true := fun x hx => List.mem_takeWhile_imp hx
        have hrestne : pctByte (rest.flatMap qc) = none := by
          cases hr : rest with
          | nil => rfl
          | cons r0 r' =>
            have h0 : needsEsc r0 = false := dropWhile_head_false (hrestdef ▸ hr)
            rw [List.flatMap_cons, qc_simple (not_needsEsc h0), List.singleton_append]
            exact qc_head_ne_pct h0
        have hflat : (c :: t).flatMap qc =
            escBytes (Pipeline.utf8Bytes run) ++ rest.flatMap qc := by
          conv_lhs => rw [hsplit]
          rw [List.flatMap_append, flatMap_qc_esc run hrunall]
        have hblt : ∀ b ∈ Pipeline.utf8Bytes run, b < 256 := by
          intro b hbm
          rw [Pipeline.utf8Bytes, List.mem_flatMap] at hbm
          obtain ⟨x, _, hbm⟩ := hbm
          exact utf8Char_lt (char_toNat_lt x) b hbm
        have hbne : Pipeline.utf8Bytes run ≠ [] := by
          intro h0
          have hge := utf8Bytes_length_ge run
          rw [h0, hrunc] at hge
          simp at hge
        have hblen : 1 ≤ (Pipeline.utf8Bytes run).length := by
          cases hbb : Pipeline.utf8Bytes run with
          | nil => exact absurd hbb hbne
          | cons x xs => simp
        rw [hflat] at hf ⊢
        cases f with
        | zero =>
          exfalso
          rw [List.length_append, escBytes_length] at hf
          omega
        | succ f =>
          rw [unquoteGo_esc (Pipeline.utf8Bytes run) (rest.flatMap qc) f hbne hblt hrestne,
            dec_enc_full run]
          have hlr : run.length + rest.length = t.length + 1 := by
            have hc := congrArg List.length hsplit
            simp only [List.length_cons, List.length_append] at hc
            omega
          have hrun1 : 1 ≤ run.length := by
            rw [hrunc]
            simp
          rw [ih rest f (by simp only [List.length_cons] at hs; omega)
            (by rw [List.length_append, escBytes_length] at hf; omega)]
          exact hsplit.symm

theorem unq_quotePlus (s : List Char) : unquotePlus (quotePlus s) = s := by
  show unquote ((quotePlus s).map fun c => if c = '+' then ' ' else c) = s
  have hmap : ((quotePlus s).map fun c => if c = '+' then ' ' else c) = s.flatMap qc := by
    rw [quotePlus, List.map_flatMap]
    rfl
  rw [hmap]
  exact unq_qc s.length s (s.flatMap qc).length (Nat.le_refl _) (Nat.le_refl _)

end Urllib

namespace Urllib

open Py

theorem quoteChar_ne_nil (c : Char) : quoteChar c ≠ [] := by
  unfold quoteChar
  split
  · simp
  · split
    · simp
    · intro h0
      have hl := escBytes_length (Pipeline.utf8Char c.toNat)
      rw [show escBytes (Pipeline.utf8Char c.toNat) =
        ((Pipeline.utf8Char c.toNat).flatMap fun b => ['%', hexUp (b / 16), hexUp (b % 16)])
        from rfl, h0] at hl
      have h1 : 1 ≤ (Pipeline.utf8Char c.toNat).length := by
        cases hu : Pipeline.utf8Char c.toNat with
        | nil => exact absurd hu (utf8Char_ne_nil c.toNat)
        | cons a b => simp
      simp only [List.length_nil] at hl
      omega

theorem quotePlus_ne_nil {s : List Char} (h : s ≠ []) : quotePlus s ≠ [] := by
  cases s with
  | nil => exact absurd rfl h
  | cons c t =>
    rw [quotePlus, List.flatMap_cons]
    intro h0
    exact quoteChar_ne_nil c (List.append_eq_nil.mp h0).1

theorem quotePlus_toNat_ne {s : List Char} {x : Char} {m : Nat} (hx : x.toNat = m)
    (hm : ¬ quoteOK m) : x ∉ quotePlus s := by
  intro hmem
  have := quotePlus_quoteOK hmem
  rw [hx] at this
  exact hm this

theorem chunk_no_amp (k v : List Char) : '&' ∉ quotePlus k ++ '=' :: quotePlus v := by
  intro hm
  rcases List.mem_append.mp hm with hm | hm
  · exact quotePlus_toNat_ne (show ('&').toNat = 38 from rfl) (by unfold quoteOK; omega) hm
  · rcases List.mem_cons.mp hm with hm | hm
    · exact absurd hm (by decide)
    · exact quotePlus_toNat_ne (show ('&').toNat = 38 from rfl) (by unfold quoteOK; omega) hm

theorem qslPair_chunk (k v : List Char) (hv : v ≠ []) :
    qslPair (quotePlus k ++ '=' :: quotePlus v) =
      some (unquotePlus (quotePlus k), unquotePlus (quotePlus v)) := by
  unfold qslPair
  have hnoeq : ∀ c ∈ quotePlus k, decide (c ≠ '=') = true := by
    intro c hc
    have hq := quotePlus_quoteOK hc
    simp only [decide_eq_true_eq]
    intro he
    rw [he, show ('=').toNat = 61 from rfl] at hq
    unfold quoteOK at hq
    omega
  rw [if_neg (show ¬((quotePlus k ++ '=' :: quotePlus v).isEmpty = true) from by simp)]
  rw [if_pos (show (quotePlus k ++ '=' :: quotePlus v).contains '=' = true from ?_)]
  · rw [takeWhile_append_all _ _ hnoeq, dropWhile_append_all _ _ hnoeq]
    rw [List.takeWhile_cons,
      if_neg (show ¬(decide (('=' : Char) ≠ '=') = true) from by decide),
      List.append_nil]
    rw [List.dropWhile_cons,
      if_neg (show ¬(decide (('=' : Char) ≠ '=') = true) from by decide)]
    rw [show List.drop 1 ('=' :: quotePlus v) = quotePlus v from rfl]
    rw [if_neg (show ¬((quotePlus v).isEmpty = true) from by
      simp only [List.isEmpty_iff]
      exact quotePlus_ne_nil hv)]
  · have hm : '=' ∈ quotePlus k ++ '=' :: quotePlus v :=
      List.mem_append_right _ (List.mem_cons_self _ _)
    exact List.elem_eq_true_of_mem hm

theorem urlencodeM_ne_nil : ∀ {pairs : List (List Char × List Char)}, pairs ≠ [] →
    urlencodeM pairs ≠ [] := by
  intro pairs h
  cases pairs with
  | nil => exact absurd rfl h
  | cons kv rest =>
    cases rest with
    | nil =>
      rw [show urlencodeM [kv] = quotePlus kv.1 ++ '=' :: quotePlus kv.2 from rfl]
      simp
    | cons kv2 r2 =>
      rw [show urlencodeM (kv :: kv2 :: r2) =
        quotePlus kv.1 ++ '=' :: quotePlus kv.2 ++ '&' :: urlencodeM (kv2 :: r2) from rfl]
      simp

theorem qsl_enc : ∀ pairs : List (List Char × List Char),
    (∀ kv ∈ pairs, kv.2 ≠ ([] : List Char)) → parse_qsl (urlencodeM pairs) = pairs := by
  intro pairs
  induction pairs with
  | nil => intro _; rfl
  | cons kv rest ih =>
    intro h
    cases rest with
    | nil =>
      rw [show urlencodeM [kv] = quotePlus kv.1 ++ '=' :: quotePlus kv.2 from rfl]
      unfold parse_qsl
      rw [if_neg (show ¬((quotePlus kv.1 ++ '=' :: quotePlus kv.2).isEmpty = true) from
        by simp)]
      rw [splitOnChar_no_sep _ (chunk_no_amp kv.1 kv.2)]
      rw [List.filterMap_cons,
        qslPair_chunk kv.1 kv.2 (h kv (List.mem_cons_self kv [])),
        unq_quotePlus, unq_quotePlus]
      rfl
    | cons kv2 r2 =>
      rw [show urlencodeM (kv :: kv2 :: r2) =
        (quotePlus kv.1 ++ '=' :: quotePlus kv.2) ++ '&' :: urlencodeM (kv2 :: r2) from rfl]
      unfold parse_qsl
      rw [if_neg (show ¬(((quotePlus kv.1 ++ '=' :: quotePlus kv.2) ++
        '&' :: urlencodeM (kv2 :: r2)).isEmpty = true) from by simp)]
      rw [splitOnChar_append _ _ (chunk_no_amp kv.1 kv.2)]
      rw [List.filterMap_cons,
        qslPair_chunk kv.1 kv.2 (h kv (List.mem_cons_self kv (kv2 :: r2))),
        unq_quotePlus, unq_quotePlus]
      have hih := ih (fun x hx => h x (List.mem_cons_of_mem kv hx))
      unfold parse_qsl at hih
      rw [if_neg (show ¬((urlencodeM (kv2 :: r2)).isEmpty = true) from by
        simp only [List.isEmpty_iff]
        exact urlencodeM_ne_nil (by simp))] at hih
      rw [hih]

theorem utf8DecGo_cons_ne_nil (f : Nat) (b : Nat) (t : List Nat) :
    utf8DecGo (f + 1) (b :: t) ≠ [] := by
  unfold utf8DecGo
  repeat' split
  all_goals simp

theorem unquoteGo_cons_ne_nil (f : Nat) (c : Char) (t : List Char) :
    unquoteGo (f + 1) (c :: t) ≠ [] := by
  conv_lhs => unfold unquoteGo
  by_cases hp : (pctByte (c :: t)).isSome = true
  · rw [if_pos hp]
    obtain ⟨⟨b, r⟩, hbr⟩ := Option.isSome_iff_exists.mp hp
    rw [pctRun_some hbr t.length]
    dsimp only
    intro h0
    have h1 := (List.append_eq_nil.mp h0).1
    exact utf8DecGo_cons_ne_nil (pctRun t.length r).1.length b (pctRun t.length r).1 h1
  · rw [if_neg hp]
    simp

theorem unquotePlus_ne_nil {l : List Char} (h : l ≠ []) : unquotePlus l ≠ [] := by
  cases l with
  | nil => exact absurd rfl h
  | cons c t =>
    show unquote ((c :: t).map _) ≠ []
    rw [List.map_cons]
    exact unquoteGo_cons_ne_nil _ _ _

theorem parse_qsl_val_ne {q0 : List Char} {kv : List Char × List Char}
    (h : kv ∈ parse_qsl q0) : kv.2 ≠ [] := by
  unfold parse_qsl at h
  split at h
  · cases h
  · obtain ⟨chunk, _, hq⟩ := List.mem_filterMap.mp h
    unfold qslPair at hq
    split at hq
    · cases hq
    · split at hq
      · dsimp only at hq
        split at hq
        · cases hq
        · rename_i hvne
          rw [← Option.some_inj.mp hq]
          apply unquotePlus_ne_nil
          simpa [List.isEmpty_iff] using hvne
      · cases hq

theorem canonicalQuery_idem (q0 : List Char) :
    Pipeline.canonicalQuery (Pipeline.canonicalQuery q0) = Pipeline.canonicalQuery q0 := by
  unfold Pipeline.canonicalQuery
  rw [qsl_enc _ (fun kv hk => parse_qsl_val_ne (List.mem_of_mem_filter hk))]
  rw [List.filter_eq_self.mpr (fun kv hk => (List.mem_filter.mp hk).2)]

end Urllib

namespace Pipeline

open Py Urllib

theorem rstripSlash_of_last {l : List Char} (h : l.getLast? ≠ some '/') :
    rstripSlash l = l := by
  unfold rstripSlash
  cases hr : l.reverse with
  | nil =>
    rw [List.dropWhile_nil, ← hr, List.reverse_reverse]
  | cons r0 rt =>
    have hr0 : r0 ≠ '/' := by
      intro he
      apply h
      rw [← List.head?_reverse, hr, he]
      rfl
    rw [List.dropWhile_cons, if_neg (by simp [hr0]), ← hr, List.reverse_reverse]

theorem canonicalPath_fix {pc : List Char} (hne : pc ≠ []) (hlast : pc.getLast? ≠ some '/') :
    canonicalPath pc = pc := by
  unfold canonicalPath
  dsimp only
  rw [if_neg (show ¬(pc.isEmpty = true) from by simp only [List.isEmpty_iff]; exact hne)]
  rw [rstripSlash_of_last hlast]
  rw [if_neg (show ¬(pc.isEmpty = true) from by simp only [List.isEmpty_iff]; exact hne)]

theorem canonicalPath_idem (p : List Char) :
    canonicalPath (canonicalPath p) = canonicalPath p := by
  obtain ⟨hne, hca⟩ := canonicalPath_no_trailing p
  rcases hca with he | hlast
  · rw [he]
    decide
  · exact canonicalPath_fix hne hlast

theorem rstripSlash_front (l : List Char) : rstripSlash l <+: l := by
  unfold rstripSlash
  obtain ⟨r, hr⟩ := List.dropWhile_suffix (l := l.reverse) (p := fun c => c = '/')
  refine ⟨r.reverse, ?_⟩
  rw [← List.reverse_append, hr, List.reverse_reverse]

theorem canonicalPath_head (p : List Char) (hp : p = [] ∨ p.headD ' ' = '/') :
    (canonicalPath p).headD ' ' = '/' := by
  rcases hp with he | hh
  · subst he
    decide
  · cases p with
    | nil => decide
    | cons c t =>
      have hc : c = '/' := hh
      subst hc
      unfold canonicalPath
      dsimp only
      rw [if_neg (show ¬((('/' :: t) : List Char).isEmpty = true) from by simp)]
      cases hre : (rstripSlash ('/' :: t)).isEmpty
      · rw [if_neg (by simp [hre])]
        obtain ⟨r, hr⟩ := rstripSlash_front ('/' :: t)
        cases hx : rstripSlash ('/' :: t) with
        | nil => exact absurd (hx ▸ hre) (by simp)
        | cons x xs =>
          rw [hx, List.cons_append] at hr
          injection hr
      · rfl

end Pipeline

namespace Urllib

open Py

theorem qOK_ne {c : Char} (h : qOK c.toNat) {m : Nat} (d : Char) (hd : d.toNat = m)
    (hm : ¬ qOK m) : c ≠ d := by
  intro he
  rw [he, hd] at h
  exact hm h

theorem reparse (n u2' q : List Char)
    (hn : n ≠ [])
    (hnd : ∀ c ∈ n, isNetlocDelim c = false)
    (hbr : ((n.contains '[' && !n.contains ']') ||
      (n.contains ']' && !n.contains '[')) = false)
    (hnsp : ∀ c ∈ n, pyIsSpace c = false)
    (hpp : ∀ c ∈ u2', c ≠ '#' ∧ c ≠ '?' ∧ c ≠ ';' ∧ pyIsSpace c = false)
    (hq : ∀ c ∈ q, qOK c.toNat) :
    urlparseM (stripChars ('h' :: 't' :: 't' :: 'p' :: 's' :: ':' :: '/' :: '/' ::
        (n ++ '/' :: (u2' ++ (if q.isEmpty then [] else '?' :: q))))) =
      Except.ok ⟨"https".data, n, '/' :: u2', q⟩ := by
  have hqsp : ∀ c ∈ q, pyIsSpace c = false := fun c hc =>
    pyIsSpace_false_mid (qOK_range (hq c hc)).1 (qOK_range (hq c hc)).2
  set tq : List Char := if q.isEmpty then [] else '?' :: q with htq
  have htqsp : ∀ c ∈ tq, pyIsSpace c = false := by
    rw [htq]
    split
    · intro c hc
      cases hc
    · intro c hc
      rcases List.mem_cons.mp hc with h | h
      · subst h
        decide
      · exact hqsp c h
  have htqh : ∀ c ∈ tq, c ≠ '#' := by
    rw [htq]
    split
    · intro c hc
      cases hc
    · intro c hc
      rcases List.mem_cons.mp hc with h | h
      · subst h
        decide
      · exact qOK_ne (hq c h) '#' (show ('#').toNat = 35 from rfl)
          (by unfold qOK quoteOK; omega)
  have hallsp : ∀ c ∈ ('h' :: 't' :: 't' :: 'p' :: 's' :: ':' :: '/' :: '/' ::
      (n ++ '/' :: (u2' ++ tq))), pyIsSpace c = false := by
    intro c hc
    simp only [List.mem_cons, List.mem_append, or_assoc] at hc
    rcases hc with h | h | h | h | h | h | h | h | h | h | h | h
    · subst h; decide
    · subst h; decide
    · subst h; decide
    · subst h; decide
    · subst h; decide
    · subst h; decide
    · subst h; decide
    · subst h; decide
    · exact hnsp c h
    · subst h; decide
    · exact (hpp c h).2.2.2
    · exact htqsp c h
  rw [stripChars_id hallsp]
  unfold urlparseM
  dsimp only
  rw [show List.dropWhile c0OrSpace ('h' :: 't' :: 't' :: 'p' :: 's' :: ':' :: '/' :: '/' ::
      (n ++ '/' :: (u2' ++ tq))) = 'h' :: 't' :: 't' :: 'p' :: 's' :: ':' :: '/' :: '/' ::
      (n ++ '/' :: (u2' ++ tq)) from by
    rw [List.dropWhile_cons, if_neg (by decide)]]
  rw [filter_unsafe_id hallsp]
  have hss : schemeSplit ('h' :: 't' :: 't' :: 'p' :: 's' :: ':' :: '/' :: '/' ::
      (n ++ '/' :: (u2' ++ tq))) = ("https".data, '/' :: '/' :: (n ++ '/' :: (u2' ++ tq))) := by
    unfold schemeSplit
    rw [show ('h' :: 't' :: 't' :: 'p' :: 's' :: ':' :: '/' :: '/' ::
        (n ++ '/' :: (u2' ++ tq))) =
      "https".data ++ ':' :: ('/' :: '/' :: (n ++ '/' :: (u2' ++ tq))) from rfl]
    rw [splitColon_append _ _ (by decide)]
    dsimp only
    rw [if_pos (by decide)]
    rfl
  rw [hss]
  dsimp only
  rw [if_pos (show List.take 2 ('/' :: '/' :: (n ++ '/' :: (u2' ++ tq))) = ['/', '/']
    from rfl)]
  dsimp only
  rw [show List.drop 2 ('/' :: '/' :: (n ++ '/' :: (u2' ++ tq))) = n ++ '/' :: (u2' ++ tq)
    from rfl]
  have hnd' : ∀ c ∈ n, (!isNetlocDelim c) = true := fun c hc => by rw [hnd c hc]; rfl
  rw [takeWhile_append_all _ _ hnd', dropWhile_append_all _ _ hnd']
  rw [List.takeWhile_cons,
    if_neg (show ¬((!isNetlocDelim '/') = true) from by decide), List.append_nil]
  rw [List.dropWhile_cons,
    if_neg (show ¬((!isNetlocDelim '/') = true) from by decide)]
  rw [if_neg (show ¬(((n.contains '[' && !n.contains ']') ||
    (n.contains ']' && !n.contains '[')) = true) from by rw [hbr]; simp)]
  have h7 : List.takeWhile (fun c => decide (c ≠ '#')) ('/' :: (u2' ++ tq)) =
      '/' :: (u2' ++ tq) := by
    apply takeWhile_all
    intro c hc
    simp only [decide_eq_true_eq]
    rcases List.mem_cons.mp hc with h | h
    · subst h; decide
    · rcases List.mem_append.mp h with h | h
      · exact (hpp c h).1
      · exact htqh c h
  rw [h7]
  have hu2q : ∀ c ∈ u2', decide (c ≠ '?') = true := by
    intro c hc
    simp only [decide_eq_true_eq]
    exact (hpp c hc).2.1
  have h8 : List.takeWhile (fun c => decide (c ≠ '?')) ('/' :: (u2' ++ tq)) = '/' :: u2' := by
    rw [List.takeWhile_cons,
      if_pos (show decide (('/' : Char) ≠ '?') = true from by decide),
      takeWhile_append_all _ _ hu2q]
    rw [htq]
    cases hqe : q.isEmpty
    · rw [if_neg (show ¬((false : Bool) = true) from by decide)]
      rw [List.takeWhile_cons,
        if_neg (show ¬(decide (('?' : Char) ≠ '?') = true) from by decide),
        List.append_nil]
    · rw [if_pos (show (true : Bool) = true from rfl)]
      rw [List.takeWhile_nil, List.append_nil]
  have h9 : List.drop 1 (List.dropWhile (fun c => decide (c ≠ '?'))
      ('/' :: (u2' ++ tq))) = q := by
    rw [List.dropWhile_cons,
      if_pos (show decide (('/' : Char) ≠ '?') = true from by decide),
      dropWhile_append_all _ _ hu2q]
    rw [htq]
    cases hqe : q.isEmpty
    · rw [if_neg (show ¬((false : Bool) = true) from by decide)]
      rw [List.dropWhile_cons,
        if_neg (show ¬(decide (('?' : Char) ≠ '?') = true) from by decide)]
      rfl
    · rw [if_pos (show (true : Bool) = true from rfl)]
      rw [List.dropWhile_nil]
      rw [List.isEmpty_iff.mp hqe]
      rfl
  rw [h8, h9]
  have hsem : (('/' :: u2').contains ';') = false := by
    cases hc : (('/' :: u2').contains ';')
    · rfl
    · exfalso
      have hm := List.mem_of_elem_eq_true hc
      rcases List.mem_cons.mp hm with h | h
      · exact absurd h (by decide)
      · exact (hpp _ h).2.2.1 rfl
  rw [if_neg (show ¬((uses_params.contains ['h', 't', 't', 'p', 's'] &&
    (('/' :: u2').contains ';')) = true) from by rw [hsem]; simp)]
  rfl

end Urllib

namespace Urllib

open Py

theorem urlparseM_eq (l : List Char) :
    urlparseM l =
      (let url1 := (l.dropWhile c0OrSpace).filter fun c => !isUnsafeUrlChar c
       let sp := schemeSplit url1
       let nl := if sp.2.take 2 = ['/', '/'] then
           ((sp.2.drop 2).takeWhile (fun c => !isNetlocDelim c),
            (sp.2.drop 2).dropWhile (fun c => !isNetlocDelim c))
         else ([], sp.2)
       if (nl.1.contains '[' && !nl.1.contains ']') ||
          (nl.1.contains ']' && !nl.1.contains '[') then Except.error ()
       else
         let preFrag := nl.2.takeWhile fun c => c ≠ '#'
         let path0 := preFrag.takeWhile fun c => c ≠ '?'
         let query := (preFrag.dropWhile fun c => c ≠ '?').drop 1
         let path := if uses_params.contains sp.1 && path0.contains ';' then
             splitparamsPath path0 else path0
         Except.ok ⟨sp.1, nl.1, path, query⟩) := by
  unfold urlparseM
  dsimp only
  split <;> rfl

theorem splitColon_post_sub : ∀ {l pre post : List Char},
    splitColon l = some (pre, post) → ∀ c ∈ post, c ∈ l := by
  intro l
  induction l with
  | nil =>
    intro pre post h
    cases h
  | cons c0 t ih =>
    intro pre post h
    unfold splitColon at h
    by_cases hc : c0 = ':'
    · rw [if_pos hc] at h
      injection h with h1
      injection h1 with _ h2
      subst h2
      exact fun c hc2 => List.mem_cons_of_mem c0 hc2
    · rw [if_neg hc] at h
      cases hs : splitColon t with
      | none =>
        rw [hs] at h
        cases h
      | some pr =>
        rw [hs] at h
        dsimp only [Option.map] at h
        injection h with h1
        injection h1 with _ h2
        subst h2
        exact fun c hc2 => List.mem_cons_of_mem c0 (ih hs c hc2)

theorem schemeSplit_snd_sub (l : List Char) : ∀ c ∈ (schemeSplit l).2, c ∈ l := by
  unfold schemeSplit
  cases hs : splitColon l with
  | none => exact fun c hc => hc
  | some pr =>
    dsimp only
    split
    · exact fun c hc => splitColon_post_sub (show splitColon l = some (pr.1, pr.2) from
        by rw [Prod.mk.eta]; exact hs) c hc
    · exact fun c hc => hc

theorem splitparamsPath_sub (p0 : List Char) : ∀ c ∈ splitparamsPath p0, c ∈ p0 := by
  intro c hc
  unfold splitparamsPath at hc
  split at hc
  · dsimp only at hc
    split at hc
    · rcases List.mem_append.mp hc with h | h
      · exact List.take_subset _ _ h
      · have h1 : c ∈ (p0.reverse.takeWhile fun c => decide (c ≠ '/')).reverse :=
          (List.takeWhile_sublist _).subset h
        rw [List.mem_reverse] at h1
        have h2 := (List.takeWhile_sublist _).subset h1
        rw [List.mem_reverse] at h2
        exact h2
    · exact hc
  · exact (List.takeWhile_sublist _).subset hc

theorem isNetlocDelim_cases {c : Char} (h : isNetlocDelim c = true) :
    c = '/' ∨ c = '?' ∨ c = '#' := by
  unfold isNetlocDelim at h
  simp only [Bool.or_eq_true, decide_eq_true_eq] at h
  tauto

theorem path_facts {rest2 l : List Char} (hsub : ∀ c ∈ rest2, c ∈ l)
    {cond : Bool} :
    ∀ c ∈ (if cond = true then
        splitparamsPath ((rest2.takeWhile fun c => c ≠ '#').takeWhile fun c => c ≠ '?')
      else ((rest2.takeWhile fun c => c ≠ '#').takeWhile fun c => c ≠ '?')),
      c ≠ '#' ∧ c ≠ '?' ∧ c ∈ l := by
  intro c hc
  have hc0 : c ∈ ((rest2.takeWhile fun c => c ≠ '#').takeWhile fun c => c ≠ '?') := by
    split at hc
    · exact splitparamsPath_sub _ c hc
    · exact hc
  have h1 := List.mem_takeWhile_imp hc0
  have hc1 : c ∈ (rest2.takeWhile fun c => c ≠ '#') := (List.takeWhile_sublist _).subset hc0
  have h2 := List.mem_takeWhile_imp hc1
  have hc2 := (List.takeWhile_sublist _).subset hc1
  simp only [decide_eq_true_eq] at h1 h2
  exact ⟨h2, h1, hsub c hc2⟩

theorem path_head {rest2 : List Char}
    (hd : rest2 = [] ∨ isNetlocDelim (rest2.headD ' ') = true) {cond : Bool}
    (hsemi : cond = false) :
    (if cond = true then
        splitparamsPath ((rest2.takeWhile fun c => c ≠ '#').takeWhile fun c => c ≠ '?')
      else ((rest2.takeWhile fun c => c ≠ '#').takeWhile fun c => c ≠ '?')) = [] ∨
    ((if cond = true then
        splitparamsPath ((rest2.takeWhile fun c => c ≠ '#').takeWhile fun c => c ≠ '?')
      else ((rest2.takeWhile fun c => c ≠ '#').takeWhile fun c => c ≠ '?'))).headD ' ' =
      '/' := by
  subst hsemi
  rcases hd with he | hdel
  · subst he
    left
    rfl
  · cases rest2 with
    | nil => left; rfl
    | cons r0 rt =>
      rcases isNetlocDelim_cases hdel with h0 | h0 | h0
      · subst h0
        right
        rw [List.takeWhile_cons,
          if_pos (show decide (('/' : Char) ≠ '#') = true from by decide),
          List.takeWhile_cons,
          if_pos (show decide (('/' : Char) ≠ '?') = true from by decide)]
        rfl
      · subst h0
        left
        rw [List.takeWhile_cons,
          if_pos (show decide (('?' : Char) ≠ '#') = true from by decide),
          List.takeWhile_cons,
          if_neg (show ¬(decide (('?' : Char) ≠ '?') = true) from by decide)]
        rfl
      · subst h0
        left
        rw [List.takeWhile_cons,
          if_neg (show ¬(decide (('#' : Char) ≠ '#') = true) from by decide),
          List.takeWhile_nil]
        rfl

theorem contains_false_of_not_mem {l : List Char} {c : Char} (h : c ∉ l) :
    l.contains c = false := by
  cases hc : l.contains c
  · rfl
  · exact absurd (List.mem_of_elem_eq_true hc) h

theorem urlparseM_ok_shape {l : List Char} {p : Parts} (h : urlparseM l = Except.ok p) :
    (∀ c ∈ p.netloc, isNetlocDelim c = false ∧ c ∈ l) ∧
    ((p.netloc.contains '[' && !p.netloc.contains ']') ||
      (p.netloc.contains ']' && !p.netloc.contains '[')) = false ∧
    (∀ c ∈ p.path, c ≠ '#' ∧ c ≠ '?' ∧ c ∈ l) ∧
    (';' ∉ l → (p.path = [] ∨ p.path.headD ' ' = '/')) ∨
    p.netloc = [] := by
  rw [urlparseM_eq] at h
  dsimp only at h
  have hurl1 : ∀ c ∈ ((l.dropWhile c0OrSpace).filter fun c => !isUnsafeUrlChar c), c ∈ l :=
    fun c hc => (List.dropWhile_sublist _).subset ((List.filter_sublist _).subset hc)
  by_cases h2 : ((schemeSplit ((l.dropWhile c0OrSpace).filter
      fun c => !isUnsafeUrlChar c)).2.take 2 = ['/', '/'])
  · simp only [if_pos h2] at h
    split at h
    · cases h
    · rename_i hbr
      injection h with h1
      subst h1
      left
      have hsubr2 : ∀ c ∈ (List.dropWhile (fun c => !isNetlocDelim c)
          (List.drop 2 (schemeSplit ((l.dropWhile c0OrSpace).filter
            fun c => !isUnsafeUrlChar c)).2)), c ∈ l := by
        intro c hc
        exact hurl1 c (schemeSplit_snd_sub _ c (List.drop_subset _ _
          ((List.dropWhile_sublist _).subset hc)))
      refine ⟨?_, ?_, ?_, ?_⟩
      · intro c hc
        have hd := List.mem_takeWhile_imp hc
        refine ⟨by simpa using hd, ?_⟩
        exact hurl1 c (schemeSplit_snd_sub _ c (List.drop_subset _ _
          ((List.takeWhile_sublist _).subset hc)))
      · simpa using hbr
      · exact path_facts hsubr2
      · intro hsl
        apply path_head
        · cases hr : (List.dropWhile (fun c => !isNetlocDelim c)
              (List.drop 2 (schemeSplit ((l.dropWhile c0OrSpace).filter
                fun c => !isUnsafeUrlChar c)).2)) with
          | nil => left; rfl
          | cons r0 rt =>
            right
            have hd := dropWhile_head_false hr
            simpa using hd
        · have hns : ';' ∉ ((List.dropWhile (fun c => !isNetlocDelim c)
              (List.drop 2 (schemeSplit ((l.dropWhile c0OrSpace).filter
                fun c => !isUnsafeUrlChar c)).2)).takeWhile
                  fun c => c ≠ '#').takeWhile fun c => c ≠ '?' := by
            intro hm
            exact hsl (hsubr2 ';' ((List.takeWhile_sublist _).subset
              ((List.takeWhile_sublist _).subset hm)))
          rw [contains_false_of_not_mem hns]
          simp
  · simp only [if_neg h2] at h
    rw [if_neg (show ¬(((([] : List Char).contains '[' && !([] : List Char).contains ']') ||
      (([] : List Char).contains ']' && !([] : List Char).contains '[')) = true)
      from by decide)] at h
    injection h with h1
    subst h1
    right
    rfl

end Urllib

namespace Pipeline

open Py Urllib

theorem urlunsplit_form (n p : List Char) (hn : n ≠ []) (hp : p.headD ' ' = '/') :
    urlunsplitM "https".data n p =
      'h' :: 't' :: 't' :: 'p' :: 's' :: ':' :: '/' :: '/' :: (n ++ p) := by
  unfold urlunsplitM
  dsimp only
  have hne : n.isEmpty = false := by
    simp only [List.isEmpty_eq_false]
    exact hn
  rw [if_pos (show (!(['h', 't', 't', 'p', 's'] : List Char).isEmpty) = true from rfl)]
  rw [if_pos (show (!n.isEmpty ||
      !(['h', 't', 't', 'p', 's'] : List Char).isEmpty &&
        uses_netloc.contains ['h', 't', 't', 'p', 's'] &&
        decide (List.take 2 p ≠ ['/', '/'])) = true from by rw [hne]; rfl)]
  rw [if_neg (show ¬((!p.isEmpty && decide (p.headD ' ' ≠ '/')) = true) from by
    rw [hp]; simp)]
  rfl

theorem canonicalQuery_nil : canonicalQuery [] = [] := rfl

theorem canon_of_canon_form (n2 t0 q : List Char)
    (hn : n2 ≠ [])
    (hnd : ∀ c ∈ n2, isNetlocDelim c = false)
    (hbr : ((n2.contains '[' && !n2.contains ']') ||
      (n2.contains ']' && !n2.contains '[')) = false)
    (hnsp : ∀ c ∈ n2, pyIsSpace c = false)
    (hfix : n2.map asciiLower = n2)
    (hpp : ∀ c ∈ t0, c ≠ '#' ∧ c ≠ '?' ∧ c ≠ ';' ∧ pyIsSpace c = false)
    (hcp : canonicalPath ('/' :: t0) = '/' :: t0)
    (hq : ∀ c ∈ q, qOK c.toNat)
    (hcq : canonicalQuery q = q) :
    canonicalize_url ⟨if q.isEmpty then urlunsplitM "https".data n2 ('/' :: t0)
      else urlunsplitM "https".data n2 ('/' :: t0) ++ '?' :: q⟩ =
    ⟨if q.isEmpty then urlunsplitM "https".data n2 ('/' :: t0)
      else urlunsplitM "https".data n2 ('/' :: t0) ++ '?' :: q⟩ := by
  have hun := urlunsplit_form n2 ('/' :: t0) hn rfl
  cases q with
  | nil =>
    show canonicalize_url ⟨urlunsplitM "https".data n2 ('/' :: t0)⟩ =
      ⟨urlunsplitM "https".data n2 ('/' :: t0)⟩
    have hok2 : urlparseM (stripChars (urlunsplitM "https".data n2 ('/' :: t0))) =
        Except.ok ⟨"https".data, n2, '/' :: t0, []⟩ := by
      rw [hun]
      have := reparse n2 t0 [] hn hnd hbr hnsp hpp (fun c hc => absurd hc (List.not_mem_nil c))
      simpa using this
    unfold canonicalize_url
    rw [show (⟨urlunsplitM "https".data n2 ('/' :: t0)⟩ : String).data =
      urlunsplitM "https".data n2 ('/' :: t0) from rfl]
    rw [hok2]
    dsimp only
    rw [hfix, hcp]
    rfl
  | cons q0 qt =>
    show canonicalize_url ⟨urlunsplitM "https".data n2 ('/' :: t0) ++ '?' :: (q0 :: qt)⟩ =
      ⟨urlunsplitM "https".data n2 ('/' :: t0) ++ '?' :: (q0 :: qt)⟩
    have hok2 : urlparseM (stripChars
        (urlunsplitM "https".data n2 ('/' :: t0) ++ '?' :: (q0 :: qt))) =
        Except.ok ⟨"https".data, n2, '/' :: t0, q0 :: qt⟩ := by
      rw [hun]
      have := reparse n2 t0 (q0 :: qt) hn hnd hbr hnsp hpp hq
      simp only [List.isEmpty_cons, Bool.false_eq_true, if_false] at this
      simp only [List.cons_append, List.append_assoc] at this ⊢
      exact this
    unfold canonicalize_url
    rw [show (⟨urlunsplitM "https".data n2 ('/' :: t0) ++ '?' :: (q0 :: qt)⟩ : String).data =
      urlunsplitM "https".data n2 ('/' :: t0) ++ '?' :: (q0 :: qt) from rfl]
    rw [hok2]
    dsimp only
    rw [hfix, hcp, hcq]
    rfl

end Pipeline

namespace Urllib

open Py

theorem contains_map_lower (c : Char) (hfixc : asciiLower c = c)
    (hnr : ¬(97 ≤ c.toNat ∧ c.toNat ≤ 122)) (l : List Char) :
    (l.map asciiLower).contains c = l.contains c := by
  cases h1 : l.contains c
  · apply contains_false_of_not_mem
    intro hm
    obtain ⟨c0, hc0, he⟩ := List.mem_map.mp hm
    have he2 : c0 = c := asciiLower_fix hnr c0 he
    subst he2
    have hx : l.contains c0 = true := List.elem_eq_true_of_mem hc0
    rw [h1] at hx
    cases hx
  · have hm := List.mem_of_elem_eq_true h1
    have hm2 : c ∈ l.map asciiLower := by
      rw [← hfixc]
      exact List.mem_map_of_mem asciiLower hm
    exact List.elem_eq_true_of_mem hm2

theorem isNetlocDelim_lower_range {c : Char} (h1 : 97 ≤ c.toNat) (h2 : c.toNat ≤ 122) :
    isNetlocDelim c = false := by
  cases hd : isNetlocDelim c
  · rfl
  · exfalso
    rcases isNetlocDelim_cases hd with h | h | h <;> subst h <;>
      simp only [show ('/').toNat = 47 from rfl, show ('?').toNat = 63 from rfl,
        show ('#').toNat = 35 from rfl] at h1 h2 <;> omega

end Urllib

namespace Pipeline

open Py Urllib

theorem canonicalPath_sub (p : List Char) :
    ∀ c ∈ canonicalPath p, c = '/' ∨ c ∈ p := by
  intro c hc
  unfold canonicalPath at hc
  dsimp only at hc
  split at hc
  · have hc' : c ∈ (['/'] : List Char) := hc
    exact Or.inl (List.mem_singleton.mp hc')
  · split at hc
    · exact Or.inl (List.mem_singleton.mp hc)
    · exact Or.inr ((rstripSlash_front p).subset hc)

end Pipeline

/-- C7 (amended).  URL canonicalization is idempotent on every URL string
that contains no whitespace and no semicolon and whose parse has a non-empty
authority (netloc): for all such u, canonicalize(canonicalize(u)) =
canonicalize(u).  (Unrestricted idempotence is refuted by
c7_counterexample.) -/
theorem c7_amended (u : String)
    (hws : ∀ c ∈ u.data, Py.pyIsSpace c = false)
    (hsemi : ';' ∉ u.data)
    (parts : Urllib.Parts)
    (hok : Urllib.urlparseM (Py.stripChars u.data) = Except.ok parts)
    (hnet : parts.netloc ≠ []) :
    Pipeline.canonicalize_url (Pipeline.canonicalize_url u) =
      Pipeline.canonicalize_url u := by
  have hstrip : Py.stripChars u.data = u.data := Urllib.stripChars_id hws
  have hok' : Urllib.urlparseM u.data = Except.ok parts := by
    rw [← hstrip]
    exact hok
  rcases Urllib.urlparseM_ok_shape hok' with ⟨hA, hB, hC, hE⟩ | hnl
  swap
  · exact absurd hnl hnet
  have hnl_ne : parts.netloc.map Py.asciiLower ≠ [] := by
    simp only [ne_eq, List.map_eq_nil_iff]
    exact hnet
  have hnd2 : ∀ c ∈ parts.netloc.map Py.asciiLower, Urllib.isNetlocDelim c = false := by
    intro c hc
    obtain ⟨c0, hc0, he⟩ := List.mem_map.mp hc
    rcases Urllib.asciiLower_cases c0 with hca | ⟨h1, h2⟩
    · rw [← he, hca]
      exact (hA c0 hc0).1
    · rw [← he]
      exact Urllib.isNetlocDelim_lower_range h1 h2
  have hbr2 : (((parts.netloc.map Py.asciiLower).contains '[' &&
      !(parts.netloc.map Py.asciiLower).contains ']') ||
      ((parts.netloc.map Py.asciiLower).contains ']' &&
      !(parts.netloc.map Py.asciiLower).contains '[')) = false := by
    rw [Urllib.contains_map_lower '[' (by decide) (by decide),
      Urllib.contains_map_lower ']' (by decide) (by decide)]
    exact hB
  have hnsp2 : ∀ c ∈ parts.netloc.map Py.asciiLower, Py.pyIsSpace c = false := by
    intro c hc
    obtain ⟨c0, hc0, he⟩ := List.mem_map.mp hc
    rcases Urllib.asciiLower_cases c0 with hca | ⟨h1, h2⟩
    · rw [← he, hca]
      exact hws c0 (hA c0 hc0).2
    · rw [← he]
      exact Urllib.pyIsSpace_false_mid (by omega) (by omega)
  have hfix2 : (parts.netloc.map Py.asciiLower).map Py.asciiLower =
      parts.netloc.map Py.asciiLower := by
    rw [List.map_map]
    exact List.map_congr_left fun c _ => Urllib.asciiLower_idem c
  have hpc0 := Pipeline.canonicalPath_no_trailing parts.path
  have hhead : (Pipeline.canonicalPath parts.path).headD ' ' = '/' :=
    Pipeline.canonicalPath_head parts.path (hE hsemi)
  obtain ⟨t0, hpc⟩ : ∃ t0, Pipeline.canonicalPath parts.path = '/' :: t0 := by
    cases hx : Pipeline.canonicalPath parts.path with
    | nil => exact absurd hx hpc0.1
    | cons c0 tt =>
      have hc0 : c0 = '/' := by
        have hh := hhead
        rw [hx] at hh
        exact hh
      exact ⟨tt, by rw [hc0]⟩
  have hpp2 : ∀ c ∈ t0, c ≠ '#' ∧ c ≠ '?' ∧ c ≠ ';' ∧ Py.pyIsSpace c = false := by
    intro c hc
    have hcpc : c ∈ Pipeline.canonicalPath parts.path := by
      rw [hpc]
      exact List.mem_cons_of_mem '/' hc
    rcases Pipeline.canonicalPath_sub parts.path c hcpc with he | hmem
    · subst he
      exact ⟨by decide, by decide, by decide, by decide⟩
    · obtain ⟨h1, h2, h3⟩ := hC c hmem
      exact ⟨h1, h2, fun hcs => hsemi (hcs ▸ h3), hws c h3⟩
  have hcp2 : Pipeline.canonicalPath ('/' :: t0) = '/' :: t0 := by
    rw [← hpc]
    exact Pipeline.canonicalPath_idem parts.path
  have hq2 : ∀ c ∈ Pipeline.canonicalQuery parts.query, Urllib.qOK c.toNat :=
    fun c hc => Urllib.urlencode_qOK _ c hc
  have hcq2 : Pipeline.canonicalQuery (Pipeline.canonicalQuery parts.query) =
      Pipeline.canonicalQuery parts.query := Urllib.canonicalQuery_idem parts.query
  have hout : Pipeline.canonicalize_url u =
      ⟨if (Pipeline.canonicalQuery parts.query).isEmpty then
          Urllib.urlunsplitM "https".data (parts.netloc.map Py.asciiLower)
            (Pipeline.canonicalPath parts.path)
        else
          Urllib.urlunsplitM "https".data (parts.netloc.map Py.asciiLower)
            (Pipeline.canonicalPath parts.path) ++
            '?' :: Pipeline.canonicalQuery parts.query⟩ := by
    unfold Pipeline.canonicalize_url
    rw [hok]
  rw [hout, hpc]
  exact Pipeline.canon_of_canon_form (parts.netloc.map Py.asciiLower) t0
    (Pipeline.canonicalQuery parts.query) hnl_ne hnd2 hbr2 hnsp2 hfix2 hpp2 hcp2 hq2 hcq2

/-- C7: counterexample to unconditional idempotence.  The URL
"https://a.com/x /" canonicalizes to "https://a.com/x " (the trailing slash
is stripped, exposing a trailing space), and the second application strips
that whitespace, yielding a different string. -/
theorem c7_counterexample :
    Pipeline.canonicalize_url (Pipeline.canonicalize_url "https://a.com/x /") ≠
      Pipeline.canonicalize_url "https://a.com/x /" := by
  decide

theorem c7_amended_witness :
    (∀ c ∈ ("https://A.com/x?a=%41&utm_source=z" : String).data,
      Py.pyIsSpace c = false) ∧
    ';' ∉ ("https://A.com/x?a=%41&utm_source=z" : String).data ∧
    Urllib.urlparseM (Py.stripChars ("https://A.com/x?a=%41&utm_source=z" : String).data) =
      Except.ok ⟨"https".data, "A.com".data, "/x".data, "a=%41&utm_source=z".data⟩ ∧
    ("A.com".data : List Char) ≠ [] ∧
    Pipeline.canonicalize_url
        (Pipeline.canonicalize_url "https://A.com/x?a=%41&utm_source=z") =
      Pipeline.canonicalize_url "https://A.com/x?a=%41&utm_source=z" :=
  ⟨by decide, by decide, rfl, by decide,
   c7_amended "https://A.com/x?a=%41&utm_source=z" (by decide) (by decide)
     ⟨"https".data, "A.com".data, "/x".data, "a=%41&utm_source=z".data⟩
     rfl (by decide)⟩
